import Mathlib

/-!
A shallow embedding of the `take` (gather) kernel of the arrow2 columnar
array library (`src/compute/take/mod.rs`), together with proofs about its
dispatcher, its overflow-safe index conversion, and the per-encoding gather
routines.

The dispatcher `take` and the conversion `maybe_usize` are translated
directly from `src/compute/take/mod.rs`.  The per-encoding modules
(`primitive.rs`, `boolean.rs`, `utf8.rs`, `binary.rs`, `dict.rs`) are
referenced by `mod.rs` but are not part of the sources; they are modelled
from the specification (sections 4.3 to 4.6), as marked on each definition.

Machine integers are modelled as `Int` (the raw payloads of an index or
offset buffer); the platform word (`usize`) is taken to be 64 bits wide.
Rust panics (`unreachable!`, `unimplemented!`, failed downcasts) are
modelled by a dedicated `TakeOutcome.panicked` constructor, distinct from
the typed `ArrowError` results.
-/

set_option maxHeartbeats 1000000

namespace Arrow2

/-- Error conditions the kernel can produce.  `DictionaryKeyOverflowError`
is the error constructed by `maybe_usize` in `mod.rs`; `Overflow` models
the accumulated-offset overflow fault of the variable-length gather
(spec section 7, "Accumulated-offset-overflow"). -/
inductive ArrowError where
  | DictionaryKeyOverflowError
  | Overflow
  deriving DecidableEq

/-- Time resolutions, as used by `DataType::Time32`, `Time64`, `Timestamp`
and `Duration`. -/
inductive TimeUnit where
  | Second
  | Millisecond
  | Microsecond
  | Nanosecond
  deriving DecidableEq

/-- Interval units; `mod.rs` dispatches `Interval(IntervalUnit::YearMonth)`
to the 32-bit fixed-width gather and leaves the other unit unhandled. -/
inductive IntervalUnit where
  | YearMonth
  | DayTime
  deriving DecidableEq

/-- The native (physical) Rust types a `PrimitiveArray` can be instantiated
at, as they appear in the `downcast_take!` invocations of `mod.rs`. -/
inductive NativeType where
  | i8
  | i16
  | i32
  | i64
  | u8
  | u16
  | u32
  | u64
  | f16
  | f32
  | f64
  | i128
  deriving DecidableEq

/-- Logical type tags (`datatypes::DataType`).  The declaration itself is
not under the sources; the variants are those matched by `take` in
`mod.rs`, plus variants (`Null`, `List`, `FixedSizeBinary`) that fall into
its final unhandled arm. -/
inductive DataType where
  | Boolean
  | Int8
  | Int16
  | Int32
  | Int64
  | UInt8
  | UInt16
  | UInt32
  | UInt64
  | Float16
  | Float32
  | Float64
  | Decimal (precision : Nat) (scale : Nat)
  | Date32
  | Date64
  | Time32 (unit : TimeUnit)
  | Time64 (unit : TimeUnit)
  | Timestamp (unit : TimeUnit) (tz : Option String)
  | Duration (unit : TimeUnit)
  | Interval (unit : IntervalUnit)
  | Utf8
  | LargeUtf8
  | Binary
  | LargeBinary
  | Dictionary (key : DataType) (value : DataType)
  | Null
  | List (inner : DataType)
  | FixedSizeBinary (byteWidth : Nat)
  deriving DecidableEq

/-- The two offset widths (`i32` and `i64`) the `Offset` trait is
implemented for; `Utf8Array<i32>` versus `Utf8Array<i64>` etc. -/
inductive OffsetWidth where
  | w32
  | w64
  deriving DecidableEq

/-- Largest value representable at a given offset width. -/
def maxOffsetOf : OffsetWidth → Int
  | .w32 => 2 ^ 31 - 1
  | .w64 => 2 ^ 63 - 1

/-- Largest value of the platform word (`usize`), on a 64-bit platform. -/
def usizeMaxI : Int := 2 ^ 64 - 1

/-- A primitive (fixed-width) array: a values buffer plus an optional
validity bitmap (absence means all rows valid).  Models
`PrimitiveArray<T>`; payloads of null slots are still present in the
buffer. -/
structure PrimitiveArray (α : Type) where
  values : List α
  validity : Option (List Bool)
  deriving DecidableEq

/-- Length of a primitive array. -/
def PrimitiveArray.len {α : Type} (a : PrimitiveArray α) : Nat :=
  a.values.length

/-- Validity of slot `i`: `true` when there is no bitmap, otherwise the
bitmap bit (out-of-range reads give `false`). -/
def PrimitiveArray.isValid {α : Type} (a : PrimitiveArray α) (i : Nat) : Bool :=
  match a.validity with
  | none => true
  | some v => v.getD i false

/-- Well-formedness: a present validity bitmap has the array's length. -/
def PrimitiveArray.wf {α : Type} (a : PrimitiveArray α) : Bool :=
  match a.validity with
  | none => true
  | some v => decide (v.length = a.values.length)

/-- A boolean (bit-packed) array; same logical structure as a primitive
array of bits. -/
abbrev BooleanArray := PrimitiveArray Bool

/-- A variable-length (utf8/binary) array: an offsets sequence of length
`n + 1`, a flat byte buffer, and an optional validity bitmap.  Row `i`
spans bytes `offsets[i]` to `offsets[i+1]`.  Models the layout shared by
`Utf8Array<O>` and `BinaryArray<O>` (module `generic_binary`). -/
structure GenericBinaryArray where
  offsets : List Int
  values : List Nat
  validity : Option (List Bool)
  deriving DecidableEq

/-- Length (row count) of a variable-length array. -/
def GenericBinaryArray.len (a : GenericBinaryArray) : Nat :=
  a.offsets.length - 1

/-- Validity of row `i` of a variable-length array. -/
def GenericBinaryArray.isValid (a : GenericBinaryArray) (i : Nat) : Bool :=
  match a.validity with
  | none => true
  | some v => v.getD i false

/-- Byte span `[start, stop)` of a flat byte buffer. -/
def slice (bytes : List Nat) (start stop : Int) : List Nat :=
  (bytes.drop start.toNat).take (stop - start).toNat

/-- Well-formedness of a variable-length array at offset width bound
`maxO`: nonempty offsets starting at 0, non-decreasing, final offset equal
to the buffer length and within the offset width, and a validity bitmap of
the row count (spec section 3, VariableLength representation). -/
def GenericBinaryArray.wf (a : GenericBinaryArray) (maxO : Int) : Bool :=
  decide (a.offsets.length ≠ 0) &&
  decide (a.offsets.getD 0 0 = 0) &&
  ((List.range (a.offsets.length - 1)).all fun i =>
    decide (a.offsets.getD i 0 ≤ a.offsets.getD (i + 1) 0)) &&
  decide (a.offsets.getD (a.offsets.length - 1) 0 = (a.values.length : Int)) &&
  decide (a.offsets.getD (a.offsets.length - 1) 0 ≤ maxO) &&
  (match a.validity with
   | none => true
   | some v => decide (v.length = a.offsets.length - 1))

/-- A dictionary array: a keys array over a shared values pool of
arbitrary type.  Models `DictionaryArray<K>`; the pool type is kept
polymorphic because `dict::take` never inspects it. -/
structure DictionaryArray (V : Type) where
  keys : PrimitiveArray Int
  values : V

/-- Conversion `maybe_usize` from `mod.rs`: checked conversion of an index value to a
platform-word offset, via `Offset::to_usize`; fails (never truncates or
wraps) when the value is negative or exceeds the platform word. -/
def maybe_usize (index : Int) : Except ArrowError Nat :=
  if 0 ≤ index ∧ index ≤ usizeMaxI then .ok index.toNat
  else .error ArrowError.DictionaryKeyOverflowError

/-- Fallible map over a list, stopping at the first error (Rust
`collect::<Result<_, _>>` over an iterator of fallible rows). -/
def tryCollect {α β : Type} (f : α → Except ArrowError β) : List α → Except ArrowError (List β)
  | [] => .ok []
  | a :: rest =>
    match f a with
    | .error e => .error e
    | .ok b =>
      match tryCollect f rest with
      | .error e => .error e
      | .ok bs => .ok (b :: bs)

/-- Shared null-combination of the output validity bitmap: it is omitted
entirely only when neither input carries one (spec section 4.3). -/
def combineValidity (idxV srcV : Option (List Bool)) (bits : List Bool) : Option (List Bool) :=
  match idxV, srcV with
  | none, none => none
  | _, _ => some bits

/-- Modelled from the spec: one row of the fixed-width gather (spec
section 4.3; module `primitive.rs` is not under the sources).  The index
slot validity is checked before any conversion; a valid slot is converted
with `maybe_usize` and the referenced source value and validity are read. -/
def take_fixed_row {α : Type} (dflt : α) (source : PrimitiveArray α)
    (indices : PrimitiveArray Int) (i : Nat) : Except ArrowError (α × Bool) :=
  if indices.isValid i then
    match maybe_usize (indices.values.getD i 0) with
    | .error e => .error e
    | .ok off => .ok (source.values.getD off dflt, source.isValid off)
  else .ok (dflt, false)

/-- Modelled from the spec: the fixed-width gather (spec section 4.3;
module `primitive.rs` is not under the sources).  One output row per index
row; the output validity bitmap combines the two null sources. -/
def take_fixed {α : Type} (dflt : α) (source : PrimitiveArray α)
    (indices : PrimitiveArray Int) : Except ArrowError (PrimitiveArray α) :=
  match tryCollect (take_fixed_row dflt source indices) (List.range indices.len) with
  | .error e => .error e
  | .ok rows =>
    .ok ⟨rows.map Prod.fst, combineValidity indices.validity source.validity (rows.map Prod.snd)⟩

/-- Modelled from the spec: `boolean::take` (spec section 4.4; module
`boolean.rs` is not under the sources) is the fixed-width gather read and
written bitwise: the same algorithm at `Bool`. -/
def boolean.take (values : BooleanArray) (indices : PrimitiveArray Int) :
    Except ArrowError BooleanArray :=
  take_fixed false values indices

/-- Modelled from the spec: `primitive::take` (spec section 4.3; module
`primitive.rs` is not under the sources). -/
def primitive.take (values : PrimitiveArray Int) (indices : PrimitiveArray Int) :
    Except ArrowError (PrimitiveArray Int) :=
  take_fixed 0 values indices

/-- Modelled from the spec: the sizing pass of the variable-length gather
for one row (spec section 4.5; module `generic_binary.rs` is not under the
sources).  Yields the row's byte-length contribution, its validity, and
the converted source offset. -/
def var_sizing_row (source : GenericBinaryArray) (indices : PrimitiveArray Int)
    (i : Nat) : Except ArrowError (Int × Bool × Nat) :=
  if indices.isValid i then
    match maybe_usize (indices.values.getD i 0) with
    | .error e => .error e
    | .ok off =>
      if source.isValid off then
        .ok (source.offsets.getD (off + 1) 0 - source.offsets.getD off 0, true, off)
      else .ok (0, false, off)
  else .ok (0, false, 0)

/-- Modelled from the spec: accumulation of the new offsets sequence, with
each accumulated total checked against the offset width and reported as an
overflow fault rather than wrapping (spec section 4.5, sizing pass). -/
def acc_offsets (maxO : Int) : List Int → Int → Except ArrowError (List Int)
  | [], _ => .ok []
  | l :: rest, acc =>
    if maxO < acc + l then .error ArrowError.Overflow
    else
      match acc_offsets maxO rest (acc + l) with
      | .error e => .error e
      | .ok out => .ok ((acc + l) :: out)

/-- Modelled from the spec: the variable-length gather (spec section 4.5;
module `generic_binary.rs` is not under the sources).  A sizing pass
accumulates the new offsets with overflow checking; a copy pass
concatenates the referenced byte spans of the non-null rows. -/
def generic_binary.take (maxO : Int) (source : GenericBinaryArray)
    (indices : PrimitiveArray Int) : Except ArrowError GenericBinaryArray :=
  match tryCollect (var_sizing_row source indices) (List.range indices.len) with
  | .error e => .error e
  | .ok rows =>
    match acc_offsets maxO (rows.map fun r => r.1) 0 with
    | .error e => .error e
    | .ok offs =>
      .ok ⟨0 :: offs,
           (rows.map fun r =>
             if r.2.1 then
               slice source.values (source.offsets.getD r.2.2 0)
                 (source.offsets.getD (r.2.2 + 1) 0)
             else []).flatten,
           combineValidity indices.validity source.validity (rows.map fun r => r.2.1)⟩

/-- Modelled from the spec: `utf8::take` (module `utf8.rs` is not under
the sources): the variable-length gather at the width's offset bound. -/
def utf8.take (w : OffsetWidth) (values : GenericBinaryArray)
    (indices : PrimitiveArray Int) : Except ArrowError GenericBinaryArray :=
  generic_binary.take (maxOffsetOf w) values indices

/-- Modelled from the spec: `binary::take` (module `binary.rs` is not
under the sources): the variable-length gather at the width's offset
bound. -/
def binary.take (w : OffsetWidth) (values : GenericBinaryArray)
    (indices : PrimitiveArray Int) : Except ArrowError GenericBinaryArray :=
  generic_binary.take (maxOffsetOf w) values indices

/-- Modelled from the spec: `dict::take` (spec section 4.6; module
`dict.rs` is not under the sources).  Gathers only the keys array with the
fixed-width gather; the shared values pool is passed through unchanged. -/
def dict.take {V : Type} (values : DictionaryArray V) (indices : PrimitiveArray Int) :
    Except ArrowError (DictionaryArray V) :=
  match primitive.take values.keys indices with
  | .error e => .error e
  | .ok keys => .ok ⟨keys, values.values⟩

/-- A type-erased column (`dyn Array`): one constructor per concrete array
representation the dispatcher downcasts to.  A primitive array carries its
logical type tag and its native Rust type; a dictionary array carries its
key type tag, its keys, and the shared values pool. -/
inductive Array where
  | boolean (a : BooleanArray)
  | primitive (dt : DataType) (nt : NativeType) (a : PrimitiveArray Int)
  | utf8 (w : OffsetWidth) (a : GenericBinaryArray)
  | binary (w : OffsetWidth) (a : GenericBinaryArray)
  | dict (keyDt : DataType) (keys : PrimitiveArray Int) (pool : Array)
  deriving DecidableEq

/-- Accessor `Array::data_type`: the logical type tag of a column. -/
def Array.data_type : Array → DataType
  | .boolean _ => .Boolean
  | .primitive dt _ _ => dt
  | .utf8 .w32 _ => .Utf8
  | .utf8 .w64 _ => .LargeUtf8
  | .binary .w32 _ => .Binary
  | .binary .w64 _ => .LargeBinary
  | .dict keyDt _ pool => .Dictionary keyDt pool.data_type

/-- Accessor `Array::len`: the row count of a column. -/
def Array.len : Array → Nat
  | .boolean a => a.len
  | .primitive _ _ a => a.len
  | .utf8 _ a => a.len
  | .binary _ a => a.len
  | .dict _ keys _ => keys.len

/-- Validity of row `i` of a column.  For a dictionary column the logical
row is null exactly when its key slot is null (spec section 4.6). -/
def Array.isValidRow : Array → Nat → Bool
  | .boolean a, i => a.isValid i
  | .primitive _ _ a, i => a.isValid i
  | .utf8 _ a, i => a.isValid i
  | .binary _ a, i => a.isValid i
  | .dict _ keys _, i => keys.isValid i

/-- The logical scalar value of a row. -/
inductive CellValue where
  | boolVal (b : Bool)
  | intVal (v : Int)
  | bytesVal (bs : List Nat)
  deriving DecidableEq

/-- Logical content of row `i` of a column: `none` when the row is null.
A dictionary row dereferences its key into the shared pool. -/
def Array.cell : Array → Nat → Option CellValue
  | .boolean a, i => if a.isValid i then some (.boolVal (a.values.getD i false)) else none
  | .primitive _ _ a, i => if a.isValid i then some (.intVal (a.values.getD i 0)) else none
  | .utf8 _ a, i =>
    if a.isValid i then
      some (.bytesVal (slice a.values (a.offsets.getD i 0) (a.offsets.getD (i + 1) 0)))
    else none
  | .binary _ a, i =>
    if a.isValid i then
      some (.bytesVal (slice a.values (a.offsets.getD i 0) (a.offsets.getD (i + 1) 0)))
    else none
  | .dict _ keys pool, i =>
    if keys.isValid i then pool.cell (keys.values.getD i 0).toNat else none

/-- The shared values pool of a dictionary column
(`DictionaryArray::values`); `none` for any other representation. -/
def Array.dictPool : Array → Option Array
  | .dict _ _ pool => some pool
  | _ => none

/-- Message of the `expect` on the `downcast_take!` macro's downcast. -/
def msgDowncastPrimitive : String := "Unable to downcast to a primitive array"

/-- Message of an `unwrap` on a failed downcast (`None`). -/
def msgUnwrapNone : String := "called Option unwrap on a None value"

/-- Message of a Rust `unreachable` panic. -/
def msgUnreachable : String := "internal error entered unreachable code"

/-- Message of the `unimplemented` panic in the final arm of `take`. -/
def msgNotImplemented : String := "not implemented Take not supported for data type"

/-- Outcome of the dispatcher: a new column, a typed error, or a Rust
panic (`unreachable`, `unimplemented`, or a failed downcast). -/
inductive TakeOutcome where
  | ok (a : Array)
  | error (e : ArrowError)
  | panicked (msg : String)
  deriving DecidableEq

/-- Lift a typed result into a dispatcher outcome, boxing the concrete
output array (`Ok(Box::new(...))`). -/
def liftOutcome {β : Type} (g : β → Array) : Except ArrowError β → TakeOutcome
  | .error e => .error e
  | .ok b => .ok (g b)

/-- The `downcast_take!` macro of `mod.rs`: downcast the erased column to
`PrimitiveArray<T>` for the expected native type (panicking via `expect`
on mismatch), then run `primitive::take`. -/
def downcast_take (nt : NativeType) (values : Array) (indices : PrimitiveArray Int) :
    TakeOutcome :=
  match values with
  | .primitive dt nt2 a =>
    if nt2 = nt then liftOutcome (Array.primitive dt nt2) (primitive.take a indices)
    else .panicked msgDowncastPrimitive
  | _ => .panicked msgDowncastPrimitive

/-- The `downcast_dict_take!` macro of `mod.rs`: downcast to
`DictionaryArray<K>` and run `dict::take`. -/
def downcast_dict_take (values : Array) (indices : PrimitiveArray Int) : TakeOutcome :=
  match values with
  | .dict keyDt keys pool =>
    match dict.take (DictionaryArray.mk keys pool) indices with
    | .error e => .error e
    | .ok d => .ok (.dict keyDt d.keys d.values)
  | _ => .panicked msgDowncastPrimitive

/-- Dispatcher `take` from `mod.rs`: dispatch on the source's logical type tag,
downcast, and delegate to the per-encoding gather.  `Float16` and a
dictionary key type outside the eight integer widths hit `unreachable`
panics; a tag with no arm hits the `unimplemented` panic. -/
def take (values : Array) (indices : PrimitiveArray Int) : TakeOutcome :=
  match values.data_type with
  | .Boolean =>
    match values with
    | .boolean a => liftOutcome Array.boolean (boolean.take a indices)
    | _ => .panicked msgUnwrapNone
  | .Int8 => downcast_take .i8 values indices
  | .Int16 => downcast_take .i16 values indices
  | .Int32 | .Date32 | .Time32 _ | .Interval .YearMonth => downcast_take .i32 values indices
  | .Int64 | .Date64 | .Time64 _ | .Duration _ | .Timestamp _ _ =>
    downcast_take .i64 values indices
  | .UInt8 => downcast_take .u8 values indices
  | .UInt16 => downcast_take .u16 values indices
  | .UInt32 => downcast_take .u32 values indices
  | .UInt64 => downcast_take .u64 values indices
  | .Float16 => .panicked msgUnreachable
  | .Float32 => downcast_take .f32 values indices
  | .Float64 => downcast_take .f64 values indices
  | .Decimal _ _ => downcast_take .i128 values indices
  | .Utf8 =>
    match values with
    | .utf8 .w32 a => liftOutcome (Array.utf8 .w32) (utf8.take .w32 a indices)
    | _ => .panicked msgUnwrapNone
  | .LargeUtf8 =>
    match values with
    | .utf8 .w64 a => liftOutcome (Array.utf8 .w64) (utf8.take .w64 a indices)
    | _ => .panicked msgUnwrapNone
  | .Binary =>
    match values with
    | .binary .w32 a => liftOutcome (Array.binary .w32) (binary.take .w32 a indices)
    | _ => .panicked msgUnwrapNone
  | .LargeBinary =>
    match values with
    | .binary .w64 a => liftOutcome (Array.binary .w64) (binary.take .w64 a indices)
    | _ => .panicked msgUnwrapNone
  | .Dictionary keyType _ =>
    match keyType with
    | .Int8 | .Int16 | .Int32 | .Int64 | .UInt8 | .UInt16 | .UInt32 | .UInt64 =>
      downcast_dict_take values indices
    | _ => .panicked msgUnreachable
  | _ => .panicked msgNotImplemented

/-- The logical-tag to native-type pairing implied by the `downcast_take!`
invocations of `take` in `mod.rs`. -/
def primPair : DataType → NativeType → Bool
  | .Int8, .i8 => true
  | .Int16, .i16 => true
  | .Int32, .i32 => true
  | .Date32, .i32 => true
  | .Time32 _, .i32 => true
  | .Interval .YearMonth, .i32 => true
  | .Int64, .i64 => true
  | .Date64, .i64 => true
  | .Time64 _, .i64 => true
  | .Duration _, .i64 => true
  | .Timestamp _ _, .i64 => true
  | .UInt8, .u8 => true
  | .UInt16, .u16 => true
  | .UInt32, .u32 => true
  | .UInt64, .u64 => true
  | .Float32, .f32 => true
  | .Float64, .f64 => true
  | .Decimal _ _, .i128 => true
  | _, _ => false

/-- The eight dictionary key types handled by the `Dictionary` arm of
`take` in `mod.rs`. -/
def dictKeySupported : DataType → Bool
  | .Int8 | .Int16 | .Int32 | .Int64 | .UInt8 | .UInt16 | .UInt32 | .UInt64 => true
  | _ => false

/-- A column the dispatcher fully supports: the downcast succeeds and no
panic arm is hit. -/
def Array.supported : Array → Bool
  | .boolean _ => true
  | .primitive dt nt _ => primPair dt nt
  | .utf8 _ _ => true
  | .binary _ _ => true
  | .dict keyDt _ _ => dictKeySupported keyDt

/-- Structural well-formedness of a column's buffers. -/
def Array.wf : Array → Bool
  | .boolean a => a.wf
  | .primitive _ _ a => a.wf
  | .utf8 w a => a.wf (maxOffsetOf w)
  | .binary w a => a.wf (maxOffsetOf w)
  | .dict _ keys _ => keys.wf

/-- The identity index column `[0, 1, ..., n-1]`, with no validity
bitmap. -/
def identityIndices (n : Nat) : PrimitiveArray Int :=
  ⟨(List.range n).map Int.ofNat, none⟩

/-- Spec-side definition, following the spec's words for property 5: the
byte length contributed by output row `i` ("if null ... zero length;
otherwise ... the referenced row's byte length"). -/
def specSelectedByteLen (source : GenericBinaryArray) (indices : PrimitiveArray Int)
    (i : Nat) : Int :=
  if indices.isValid i then
    if source.isValid (indices.values.getD i 0).toNat then
      source.offsets.getD ((indices.values.getD i 0).toNat + 1) 0 -
        source.offsets.getD (indices.values.getD i 0).toNat 0
    else 0
  else 0

/-- Spec-side definition: "the sum of byte lengths of all non-null
selected rows". -/
def specTotalBytes (source : GenericBinaryArray) (indices : PrimitiveArray Int) : Int :=
  ((List.range indices.len).map (specSelectedByteLen source indices)).sum

/-- Spec-side definition: "the concatenation, in index order, of the
referenced spans" of the non-null rows. -/
def specConcatBytes (source : GenericBinaryArray) (indices : PrimitiveArray Int) :
    List Nat :=
  ((List.range indices.len).map fun i =>
    if indices.isValid i then
      if source.isValid (indices.values.getD i 0).toNat then
        slice source.values (source.offsets.getD (indices.values.getD i 0).toNat 0)
          (source.offsets.getD ((indices.values.getD i 0).toNat + 1) 0)
      else []
    else []).flatten

/-! Helper lemmas about the embedded operations. -/

theorem maybe_usize_ok_iff {p : Int} {off : Nat} (h : maybe_usize p = .ok off) :
    off = p.toNat ∧ 0 ≤ p ∧ p ≤ usizeMaxI := by
  unfold maybe_usize at h
  split at h
  next hc =>
    injection h with h2
    exact ⟨h2.symm, hc.1, hc.2⟩
  next hc => cases h

theorem maybe_usize_of_bounds {p : Int} (h0 : 0 ≤ p) (h1 : p ≤ usizeMaxI) :
    maybe_usize p = .ok p.toNat := by
  unfold maybe_usize
  rw [if_pos ⟨h0, h1⟩]

theorem tryCollect_length {α β : Type} {f : α → Except ArrowError β} :
    ∀ {l : List α} {r : List β}, tryCollect f l = .ok r → r.length = l.length := by
  intro l
  induction l with
  | nil =>
    intro r h
    injection h with h
    subst h
    rfl
  | cons a rest ih =>
    intro r h
    unfold tryCollect at h
    cases hfa : f a with
    | error e => rw [hfa] at h; cases h
    | ok b =>
      rw [hfa] at h
      cases hrec : tryCollect f rest with
      | error e => rw [hrec] at h; cases h
      | ok bs =>
        rw [hrec] at h
        injection h with h
        rw [← h]
        simp [ih hrec]

theorem tryCollect_get {α β : Type} {f : α → Except ArrowError β} (d1 : α) (d2 : β) :
    ∀ {l : List α} {r : List β}, tryCollect f l = .ok r →
      ∀ i, i < l.length → f (l.getD i d1) = .ok (r.getD i d2) := by
  intro l
  induction l with
  | nil =>
    intro r h i hi
    simp at hi
  | cons a rest ih =>
    intro r h i hi
    unfold tryCollect at h
    cases hfa : f a with
    | error e => rw [hfa] at h; cases h
    | ok b =>
      rw [hfa] at h
      cases hrec : tryCollect f rest with
      | error e => rw [hrec] at h; cases h
      | ok bs =>
        rw [hrec] at h
        injection h with h
        rw [← h]
        cases i with
        | zero => simpa using hfa
        | succ j =>
          simp only [List.getD_cons_succ]
          exact ih hrec j (by simpa using hi)

theorem tryCollect_congr {α β : Type} {f g : α → Except ArrowError β} :
    ∀ {l : List α}, (∀ a ∈ l, f a = g a) → tryCollect f l = tryCollect g l := by
  intro l
  induction l with
  | nil => intro _; rfl
  | cons a rest ih =>
    intro h
    unfold tryCollect
    rw [h a (List.mem_cons_self a rest), ih (fun x hx => h x (List.mem_cons_of_mem a hx))]

theorem tryCollect_isOk {α β : Type} {f : α → Except ArrowError β} :
    ∀ {l : List α}, (∀ a ∈ l, ∃ b, f a = .ok b) → ∃ r, tryCollect f l = .ok r := by
  intro l
  induction l with
  | nil => intro _; exact ⟨[], rfl⟩
  | cons a rest ih =>
    intro h
    obtain ⟨b, hb⟩ := h a (List.mem_cons_self a rest)
    obtain ⟨r, hr⟩ := ih (fun x hx => h x (List.mem_cons_of_mem a hx))
    refine ⟨b :: r, ?_⟩
    unfold tryCollect
    rw [hb, hr]

theorem range_getD {n i : Nat} (h : i < n) : (List.range n).getD i 0 = i := by
  rw [List.getD_eq_getElem _ _ (by simpa using h)]
  simp

/-- Closed form of a successful fixed-width sizing pass: the rows are the
pointwise gather results. -/
theorem take_fixed_rows_eq {α : Type} {dflt : α} {src : PrimitiveArray α}
    {idx : PrimitiveArray Int} {rows : List (α × Bool)}
    (h : tryCollect (take_fixed_row dflt src idx) (List.range idx.len) = .ok rows) :
    rows = (List.range idx.len).map fun i =>
      if idx.isValid i then
        (src.values.getD (idx.values.getD i 0).toNat dflt,
         src.isValid (idx.values.getD i 0).toNat)
      else (dflt, false) := by
  have hlen := tryCollect_length h
  apply List.ext_getElem
  · simpa using hlen
  · intro i h1 h2
    have hi : i < idx.len := by simpa using h2
    have hget := tryCollect_get 0 (dflt, false) h i (by simpa using hi)
    rw [range_getD hi] at hget
    rw [List.getD_eq_getElem _ _ h1] at hget
    unfold take_fixed_row at hget
    by_cases hv : idx.isValid i
    · rw [if_pos hv] at hget
      cases hmu : maybe_usize (idx.values.getD i 0) with
      | error e => rw [hmu] at hget; cases hget
      | ok off =>
        rw [hmu] at hget
        obtain ⟨hoff, -, -⟩ := maybe_usize_ok_iff hmu
        injection hget with hg
        rw [← hg, hoff]
        simp [hv]
    · rw [if_neg hv] at hget
      injection hget with hg
      rw [← hg]
      simp [hv]

theorem isValid_of_validity_none {α : Type} {a : PrimitiveArray α}
    (h : a.validity = none) (i : Nat) : a.isValid i = true := by
  unfold PrimitiveArray.isValid
  rw [h]

theorem isValid_of_validity_some {α : Type} {a : PrimitiveArray α} {v : List Bool}
    (h : a.validity = some v) (i : Nat) : a.isValid i = v.getD i false := by
  unfold PrimitiveArray.isValid
  rw [h]

/-- Characterization of a successful fixed-width gather. -/
theorem take_fixed_ok {α : Type} {dflt : α} {src : PrimitiveArray α}
    {idx : PrimitiveArray Int} {out : PrimitiveArray α}
    (h : take_fixed dflt src idx = .ok out) :
    out.values.length = idx.len ∧
    (∀ i, i < idx.len →
      out.isValid i =
        (if idx.isValid i then src.isValid ((idx.values.getD i 0).toNat) else false) ∧
      out.values.getD i dflt =
        (if idx.isValid i then src.values.getD ((idx.values.getD i 0).toNat) dflt else dflt)) := by
  unfold take_fixed at h
  cases hr : tryCollect (take_fixed_row dflt src idx) (List.range idx.len) with
  | error e => rw [hr] at h; cases h
  | ok rows =>
    rw [hr] at h
    injection h with h
    have hrows := take_fixed_rows_eq hr
    subst hrows
    have hvals : out.values = (List.range idx.len).map fun i =>
        if idx.isValid i then src.values.getD (idx.values.getD i 0).toNat dflt else dflt := by
      rw [← h]
      simp only [List.map_map]
      apply List.map_congr_left
      intro i _
      by_cases hv : idx.isValid i <;> simp [hv]
    have hvalid : out.validity = combineValidity idx.validity src.validity
        ((List.range idx.len).map fun i =>
          if idx.isValid i then src.isValid (idx.values.getD i 0).toNat else false) := by
      rw [← h]
      simp only [List.map_map]
      congr 1
      apply List.map_congr_left
      intro i _
      by_cases hv : idx.isValid i <;> simp [hv]
    constructor
    · rw [hvals]; simp [PrimitiveArray.len]
    · intro i hi
      constructor
      · rcases hIV : idx.validity with - | iv <;> rcases hSV : src.validity with - | sv
        · rw [isValid_of_validity_none (by rw [hvalid, hIV, hSV]; rfl)]
          rw [isValid_of_validity_none hIV, isValid_of_validity_none hSV]
          rfl
        all_goals
          rw [isValid_of_validity_some (v :=
            (List.range idx.len).map fun i =>
              if idx.isValid i then src.isValid (idx.values.getD i 0).toNat else false)
            (by rw [hvalid, hIV, hSV]; rfl)]
          rw [List.getD_eq_getElem _ _ (by simpa using hi)]
          simp only [List.getElem_map]
          rw [List.getElem_range]
      · rw [hvals]
        rw [List.getD_eq_getElem _ _ (by simpa using hi)]
        simp only [List.getElem_map]
        rw [List.getElem_range]

/-- A fixed-width gather succeeds when every valid index slot holds a
convertible payload. -/
theorem take_fixed_isOk {α : Type} (dflt : α) (src : PrimitiveArray α)
    (idx : PrimitiveArray Int)
    (h : ∀ i, i < idx.len → idx.isValid i = true →
      0 ≤ idx.values.getD i 0 ∧ idx.values.getD i 0 ≤ usizeMaxI) :
    ∃ out, take_fixed dflt src idx = .ok out := by
  have hall : ∀ i ∈ List.range idx.len, ∃ b, take_fixed_row dflt src idx i = .ok b := by
    intro i hi
    unfold take_fixed_row
    by_cases hv : idx.isValid i
    · rw [if_pos hv]
      obtain ⟨h0, h1⟩ := h i (List.mem_range.1 hi) hv
      rw [maybe_usize_of_bounds h0 h1]
      exact ⟨_, rfl⟩
    · rw [if_neg hv]
      exact ⟨_, rfl⟩
  obtain ⟨rows, hrow⟩ := tryCollect_isOk hall
  refine ⟨⟨rows.map Prod.fst, combineValidity idx.validity src.validity (rows.map Prod.snd)⟩, ?_⟩
  unfold take_fixed
  rw [hrow]

theorem identityIndices_len (n : Nat) : (identityIndices n).len = n := by
  simp [identityIndices, PrimitiveArray.len]

theorem identityIndices_isValid (n i : Nat) : (identityIndices n).isValid i = true := rfl

theorem identityIndices_getD {n i : Nat} (h : i < n) :
    (identityIndices n).values.getD i 0 = Int.ofNat i := by
  show ((List.range n).map Int.ofNat).getD i 0 = Int.ofNat i
  rw [List.getD_eq_getElem _ _ (by simpa using h)]
  simp only [List.getElem_map]
  rw [List.getElem_range]

/-- Gathering with the identity index sequence reproduces a fixed-width
array pointwise (validity and raw values). -/
theorem take_fixed_identity {α : Type} (dflt : α) (src : PrimitiveArray α)
    (hn : (src.len : Int) ≤ usizeMaxI) :
    ∃ out, take_fixed dflt src (identityIndices src.len) = .ok out ∧
      out.values.length = src.len ∧
      (∀ i, i < src.len →
        out.isValid i = src.isValid i ∧ out.values.getD i dflt = src.values.getD i dflt) := by
  have hbound : ∀ i, i < (identityIndices src.len).len →
      (identityIndices src.len).isValid i = true →
      0 ≤ (identityIndices src.len).values.getD i 0 ∧
        (identityIndices src.len).values.getD i 0 ≤ usizeMaxI := by
    intro i hi _
    rw [identityIndices_getD (by rwa [identityIndices_len] at hi)]
    constructor
    · exact Int.ofNat_nonneg i
    · have hlt : i < src.len := by rwa [identityIndices_len] at hi
      have hle : (i : Int) ≤ (src.len : Int) := by exact_mod_cast Nat.le_of_lt hlt
      calc (Int.ofNat i) = (i : Int) := rfl
        _ ≤ (src.len : Int) := hle
        _ ≤ usizeMaxI := hn
  obtain ⟨out, hout⟩ := take_fixed_isOk dflt src (identityIndices src.len) hbound
  obtain ⟨hlen, hpt⟩ := take_fixed_ok hout
  refine ⟨out, hout, by rw [hlen, identityIndices_len], ?_⟩
  intro i hi
  have hi2 : i < (identityIndices src.len).len := by rw [identityIndices_len]; exact hi
  obtain ⟨h1, h2⟩ := hpt i hi2
  rw [identityIndices_isValid, if_pos rfl, identityIndices_getD hi] at h1 h2
  exact ⟨h1, h2⟩

/-! Lemmas about the offset accumulation of the variable-length gather. -/

theorem acc_offsets_length {maxO : Int} :
    ∀ {lens : List Int} {acc : Int} {res : List Int},
      acc_offsets maxO lens acc = .ok res → res.length = lens.length := by
  intro lens
  induction lens with
  | nil =>
    intro acc res h
    injection h with h
    subst h
    rfl
  | cons l rest ih =>
    intro acc res h
    unfold acc_offsets at h
    split at h
    · cases h
    · cases hrec : acc_offsets maxO rest (acc + l) with
      | error e => rw [hrec] at h; cases h
      | ok out =>
        rw [hrec] at h
        injection h with h
        subst h
        simp [ih hrec]

theorem acc_offsets_get {maxO : Int} :
    ∀ {lens : List Int} {acc : Int} {res : List Int},
      acc_offsets maxO lens acc = .ok res →
      ∀ k, k < lens.length → res.getD k 0 = acc + (lens.take (k + 1)).sum := by
  intro lens
  induction lens with
  | nil =>
    intro acc res h k hk
    simp at hk
  | cons l rest ih =>
    intro acc res h k hk
    unfold acc_offsets at h
    split at h
    · cases h
    · cases hrec : acc_offsets maxO rest (acc + l) with
      | error e => rw [hrec] at h; cases h
      | ok out =>
        rw [hrec] at h
        injection h with h
        subst h
        cases k with
        | zero => simp
        | succ j =>
          simp only [List.getD_cons_succ]
          rw [ih hrec j (by simpa using hk)]
          simp only [List.take_succ_cons, List.sum_cons]
          ring

theorem acc_offsets_isOk {maxO : Int} :
    ∀ {lens : List Int} {acc : Int},
      (∀ k, k ≤ lens.length → acc + (lens.take k).sum ≤ maxO) →
      ∃ res, acc_offsets maxO lens acc = .ok res := by
  intro lens
  induction lens with
  | nil => intro acc _; exact ⟨[], rfl⟩
  | cons l rest ih =>
    intro acc h
    have h1 : acc + l ≤ maxO := by
      have := h 1 (by simp)
      simpa using this
    have hstep : ∀ k, k ≤ rest.length → (acc + l) + (rest.take k).sum ≤ maxO := by
      intro k hk
      have := h (k + 1) (by simpa using Nat.succ_le_succ hk)
      simp only [List.take_succ_cons, List.sum_cons] at this
      calc acc + l + (rest.take k).sum = acc + (l + (rest.take k).sum) := by ring
        _ ≤ maxO := this
    obtain ⟨res, hres⟩ := ih hstep
    refine ⟨(acc + l) :: res, ?_⟩
    unfold acc_offsets
    rw [if_neg (not_lt.mpr h1), hres]

theorem acc_offsets_overflow {maxO : Int} :
    ∀ {lens : List Int} {acc : Int},
      (∀ x ∈ lens, 0 ≤ x) → acc ≤ maxO → maxO < acc + lens.sum →
      acc_offsets maxO lens acc = .error ArrowError.Overflow := by
  intro lens
  induction lens with
  | nil =>
    intro acc _ hle hlt
    simp at hlt
    exact absurd hlt (not_lt.mpr hle)
  | cons l rest ih =>
    intro acc hpos hle hlt
    unfold acc_offsets
    by_cases hc : maxO < acc + l
    · rw [if_pos hc]
    · rw [if_neg hc]
      have hrec : acc_offsets maxO rest (acc + l) = .error ArrowError.Overflow := by
        apply ih (fun x hx => hpos x (by simp [hx])) (not_lt.1 hc)
        simp only [List.sum_cons] at hlt
        calc maxO < acc + (l + rest.sum) := hlt
          _ = acc + l + rest.sum := by ring
      rw [hrec]

/-! Lemmas about the variable-length gather. -/

theorem gb_isValid_of_validity_none {a : GenericBinaryArray}
    (h : a.validity = none) (i : Nat) : a.isValid i = true := by
  unfold GenericBinaryArray.isValid
  rw [h]

theorem gb_isValid_of_validity_some {a : GenericBinaryArray} {v : List Bool}
    (h : a.validity = some v) (i : Nat) : a.isValid i = v.getD i false := by
  unfold GenericBinaryArray.isValid
  rw [h]

/-- Closed form of a successful variable-length sizing pass. -/
theorem gb_rows_eq {src : GenericBinaryArray} {idx : PrimitiveArray Int}
    {rows : List (Int × Bool × Nat)}
    (h : tryCollect (var_sizing_row src idx) (List.range idx.len) = .ok rows) :
    rows = (List.range idx.len).map fun i =>
      if idx.isValid i then
        (if src.isValid (idx.values.getD i 0).toNat then
          (src.offsets.getD ((idx.values.getD i 0).toNat + 1) 0 -
             src.offsets.getD (idx.values.getD i 0).toNat 0, true,
           (idx.values.getD i 0).toNat)
         else (0, false, (idx.values.getD i 0).toNat))
      else (0, false, 0) := by
  have hlen := tryCollect_length h
  apply List.ext_getElem
  · simpa using hlen
  · intro i h1 h2
    have hi : i < idx.len := by simpa using h2
    have hget := tryCollect_get 0 (0, false, 0) h i (by simpa using hi)
    rw [range_getD hi] at hget
    rw [List.getD_eq_getElem _ _ h1] at hget
    unfold var_sizing_row at hget
    by_cases hv : idx.isValid i
    · rw [if_pos hv] at hget
      cases hmu : maybe_usize (idx.values.getD i 0) with
      | error e => rw [hmu] at hget; cases hget
      | ok off =>
        rw [hmu] at hget
        obtain ⟨hoff, -, -⟩ := maybe_usize_ok_iff hmu
        subst hoff
        by_cases hsv : src.isValid (idx.values.getD i 0).toNat
        · simp only [hsv, if_true] at hget
          simp only [List.getElem_map, List.getElem_range, hv, hsv, if_true]
          injection hget with hg
          exact hg.symm
        · simp only [hsv, if_false, Bool.false_eq_true] at hget
          simp only [List.getElem_map, List.getElem_range, hv, hsv, if_true,
            Bool.false_eq_true, if_false]
          injection hget with hg
          exact hg.symm
    · rw [if_neg hv] at hget
      injection hget with hg
      rw [← hg]
      simp [hv]

/-- Characterization of a successful variable-length gather in terms of
the spec-side byte accounting. -/
theorem generic_binary_ok {maxO : Int} {src : GenericBinaryArray}
    {idx : PrimitiveArray Int} {out : GenericBinaryArray}
    (h : generic_binary.take maxO src idx = .ok out) :
    ∃ offs,
      acc_offsets maxO ((List.range idx.len).map (specSelectedByteLen src idx)) 0 = .ok offs ∧
      out.offsets = 0 :: offs ∧
      out.values = specConcatBytes src idx ∧
      out.validity = combineValidity idx.validity src.validity
        ((List.range idx.len).map fun i =>
          if idx.isValid i then src.isValid (idx.values.getD i 0).toNat else false) := by
  unfold generic_binary.take at h
  cases hr : tryCollect (var_sizing_row src idx) (List.range idx.len) with
  | error e => rw [hr] at h; cases h
  | ok rows =>
    simp only [hr] at h
    have hrows := gb_rows_eq hr
    subst hrows
    have hlens : ((List.range idx.len).map fun i =>
        if idx.isValid i then
          (if src.isValid (idx.values.getD i 0).toNat then
            (src.offsets.getD ((idx.values.getD i 0).toNat + 1) 0 -
               src.offsets.getD (idx.values.getD i 0).toNat 0, true,
             (idx.values.getD i 0).toNat)
           else (0, false, (idx.values.getD i 0).toNat))
        else ((0 : Int), false, (0 : Nat))).map (fun r => r.1) =
        (List.range idx.len).map (specSelectedByteLen src idx) := by
      rw [List.map_map]
      apply List.map_congr_left
      intro i _
      simp only [Function.comp]
      unfold specSelectedByteLen
      by_cases hv : idx.isValid i
      · rw [if_pos hv, if_pos hv]
        by_cases hsv : src.isValid (idx.values.getD i 0).toNat
        · rw [if_pos hsv, if_pos hsv]
        · rw [if_neg hsv, if_neg hsv]
      · rw [if_neg hv, if_neg hv]
    rw [hlens] at h
    cases hacc : acc_offsets maxO ((List.range idx.len).map (specSelectedByteLen src idx)) 0 with
    | error e => rw [hacc] at h; cases h
    | ok offs =>
      simp only [hacc] at h
      injection h with h
      refine ⟨offs, rfl, ?_, ?_, ?_⟩
      · rw [← h]
      · rw [← h]
        show (List.map _ _).flatten = _
        unfold specConcatBytes
        congr 1
        rw [List.map_map]
        apply List.map_congr_left
        intro i _
        simp only [Function.comp]
        by_cases hv : idx.isValid i
        · by_cases hsv : src.isValid (idx.values.getD i 0).toNat
          · rw [if_pos hv, if_pos hv, if_pos hsv, if_pos hsv]
            rfl
          · rw [if_pos hv, if_pos hv, if_neg hsv, if_neg hsv]
            rfl
        · rw [if_neg hv, if_neg hv]
          rfl
      · rw [← h]
        show combineValidity _ _ (List.map _ _) = _
        congr 1
        rw [List.map_map]
        apply List.map_congr_left
        intro i _
        simp only [Function.comp]
        by_cases hv : idx.isValid i
        · by_cases hsv : src.isValid (idx.values.getD i 0).toNat
          · rw [if_pos hv, if_pos hv, if_pos hsv, hsv]
          · rw [Bool.not_eq_true] at hsv
            rw [if_pos hv, if_pos hv, hsv]
            rfl
        · rw [if_neg hv, if_neg hv]

theorem generic_binary_len {maxO : Int} {src : GenericBinaryArray}
    {idx : PrimitiveArray Int} {out : GenericBinaryArray}
    (h : generic_binary.take maxO src idx = .ok out) :
    out.offsets.length = idx.len + 1 := by
  obtain ⟨offs, hacc, hoffs, -, -⟩ := generic_binary_ok h
  have := acc_offsets_length hacc
  rw [hoffs]
  simp only [List.length_cons, this]
  simp

theorem generic_binary_valid {maxO : Int} {src : GenericBinaryArray}
    {idx : PrimitiveArray Int} {out : GenericBinaryArray}
    (h : generic_binary.take maxO src idx = .ok out) :
    ∀ i, i < idx.len →
      out.isValid i =
        (if idx.isValid i then src.isValid ((idx.values.getD i 0).toNat) else false) := by
  obtain ⟨offs, hacc, hoffs, hvals, hvalid⟩ := generic_binary_ok h
  intro i hi
  rcases hIV : idx.validity with - | iv <;> rcases hSV : src.validity with - | sv
  · rw [gb_isValid_of_validity_none (by rw [hvalid, hIV, hSV]; rfl)]
    rw [isValid_of_validity_none hIV, gb_isValid_of_validity_none hSV]
    rfl
  all_goals
    rw [gb_isValid_of_validity_some (v :=
      (List.range idx.len).map fun i =>
        if idx.isValid i then src.isValid (idx.values.getD i 0).toNat else false)
      (by rw [hvalid, hIV, hSV]; rfl)]
    rw [List.getD_eq_getElem _ _ (by simpa using hi)]
    simp only [List.getElem_map]
    rw [List.getElem_range]

/-- The final offset of a successful variable-length gather is the
spec-side total of selected byte lengths. -/
theorem generic_binary_final_offset {maxO : Int} {src : GenericBinaryArray}
    {idx : PrimitiveArray Int} {out : GenericBinaryArray}
    (h : generic_binary.take maxO src idx = .ok out) :
    out.offsets.getD idx.len 0 = specTotalBytes src idx := by
  obtain ⟨offs, hacc, hoffs, -, -⟩ := generic_binary_ok h
  have hlen := acc_offsets_length hacc
  rw [hoffs]
  unfold specTotalBytes
  cases hn : idx.len with
  | zero =>
    have hoffs0 : offs = [] := by
      apply List.length_eq_zero.mp
      rw [hlen]
      simp [hn]
    subst hoffs0
    simp
  | succ m =>
    simp only [List.getD_cons_succ]
    rw [acc_offsets_get hacc m (by simp; omega)]
    rw [List.take_of_length_le (by simp [hn])]
    rw [hn]
    ring

/-- Unpacking of the variable-length well-formedness invariant. -/
theorem gb_wf_spec {a : GenericBinaryArray} {maxO : Int} (h : a.wf maxO = true) :
    a.offsets.length ≠ 0 ∧ a.offsets.getD 0 0 = 0 ∧
    (∀ i, i + 1 < a.offsets.length → a.offsets.getD i 0 ≤ a.offsets.getD (i + 1) 0) ∧
    a.offsets.getD (a.offsets.length - 1) 0 = (a.values.length : Int) ∧
    a.offsets.getD (a.offsets.length - 1) 0 ≤ maxO ∧
    (∀ v, a.validity = some v → v.length = a.offsets.length - 1) := by
  unfold GenericBinaryArray.wf at h
  simp only [Bool.and_eq_true, decide_eq_true_eq, List.all_eq_true, List.mem_range] at h
  refine ⟨h.1.1.1.1.1, h.1.1.1.1.2, ?_, h.1.1.2, h.1.2, ?_⟩
  · intro i hi
    exact h.1.1.1.2 i (by omega)
  · intro v hv
    have h6 := h.2
    rw [hv] at h6
    simpa using h6

theorem getD_mono {L : List Int}
    (hpair : ∀ i, i + 1 < L.length → L.getD i 0 ≤ L.getD (i + 1) 0) :
    ∀ i j, i ≤ j → j < L.length → L.getD i 0 ≤ L.getD j 0 := by
  intro i j hij hj
  induction j with
  | zero =>
    have h0 : i = 0 := Nat.le_zero.mp hij
    subst h0
    exact le_refl _
  | succ k ih =>
    by_cases hik : i = k + 1
    · subst hik
      exact le_refl _
    · have h1 : i ≤ k := by omega
      have h2 : k < L.length := by omega
      exact le_trans (ih h1 h2) (hpair k hj)

theorem telescope_sum {L : List Int} :
    ∀ k, k < L.length →
      ((List.range k).map fun i => L.getD (i + 1) 0 - L.getD i 0).sum =
        L.getD k 0 - L.getD 0 0 := by
  intro k
  induction k with
  | zero => intro _; simp
  | succ m ih =>
    intro hk
    rw [List.range_succ, List.map_append, List.sum_append, ih (by omega)]
    simp only [List.map_cons, List.map_nil, List.sum_cons, List.sum_nil]
    ring

/-- Extraction of one block from a flattened list of byte spans. -/
theorem flatten_extract (bss : List (List Nat)) :
    ∀ i, i < bss.length →
      (bss.flatten.drop (((bss.take i).map List.length).sum)).take (bss.getD i []).length =
        bss.getD i [] := by
  induction bss with
  | nil => intro i hi; simp at hi
  | cons b bs ih =>
    intro i hi
    cases i with
    | zero =>
      simp only [List.take_zero, List.map_nil, List.sum_nil, List.drop_zero,
        List.getD_cons_zero, List.flatten_cons]
      exact List.take_left b bs.flatten
    | succ j =>
      simp only [List.take_succ_cons, List.map_cons, List.sum_cons, List.flatten_cons,
        List.getD_cons_succ]
      rw [List.drop_append]
      exact ih j (by simpa using hi)

theorem sum_map_take_succ {α : Type} (f : α → Nat) (l : List α) (d : α) :
    ∀ i, i < l.length →
      ((l.take (i + 1)).map f).sum = ((l.take i).map f).sum + f (l.getD i d) := by
  intro i hi
  rw [List.take_succ, List.map_append, List.sum_append]
  rw [List.getElem?_eq_getElem hi]
  rw [List.getD_eq_getElem _ _ hi]
  simp

/-- The sizing-pass byte lengths of a successful variable-length gather
coincide with the spec-side selected lengths. -/
theorem gb_lens_eq {src : GenericBinaryArray} {idx : PrimitiveArray Int}
    {rows : List (Int × Bool × Nat)}
    (h : tryCollect (var_sizing_row src idx) (List.range idx.len) = .ok rows) :
    rows.map (fun r => r.1) = (List.range idx.len).map (specSelectedByteLen src idx) := by
  rw [gb_rows_eq h, List.map_map]
  apply List.map_congr_left
  intro i _
  simp only [Function.comp]
  unfold specSelectedByteLen
  by_cases hv : idx.isValid i
  · rw [if_pos hv, if_pos hv]
    by_cases hsv : src.isValid (idx.values.getD i 0).toNat
    · rw [if_pos hsv, if_pos hsv]
    · rw [if_neg hsv, if_neg hsv]
  · rw [if_neg hv, if_neg hv]

/-- Selected byte lengths are non-negative for in-bounds indices over a
well-formed source. -/
theorem spec_len_nonneg {maxO : Int} {src : GenericBinaryArray} {idx : PrimitiveArray Int}
    (hwf : src.wf maxO = true)
    (hb : ∀ i, i < idx.len → idx.isValid i = true → (idx.values.getD i 0).toNat < src.len) :
    ∀ x ∈ (List.range idx.len).map (specSelectedByteLen src idx), 0 ≤ x := by
  obtain ⟨hne, h0, hpair, hlast, hmax, hval⟩ := gb_wf_spec hwf
  intro x hx
  obtain ⟨i, hi, rfl⟩ := List.mem_map.1 hx
  have hi2 : i < idx.len := List.mem_range.1 hi
  unfold specSelectedByteLen
  by_cases hv : idx.isValid i
  · rw [if_pos hv]
    by_cases hsv : src.isValid (idx.values.getD i 0).toNat
    · rw [if_pos hsv]
      have hoff : (idx.values.getD i 0).toNat < src.len := hb i hi2 hv
      have hlt : (idx.values.getD i 0).toNat + 1 < src.offsets.length := by
        unfold GenericBinaryArray.len at hoff
        omega
      have := hpair (idx.values.getD i 0).toNat hlt
      omega
    · rw [if_neg hsv]
  · rw [if_neg hv]

/-- Evaluation of one sizing row once the index payload converts. -/
theorem var_sizing_row_of_ok {src : GenericBinaryArray} {idx : PrimitiveArray Int}
    {i : Nat} {off : Nat} (hmu : maybe_usize (idx.values.getD i 0) = .ok off)
    (hv : idx.isValid i = true) :
    var_sizing_row src idx i =
      (if src.isValid off = true then
        Except.ok (src.offsets.getD (off + 1) 0 - src.offsets.getD off 0, true, off)
      else Except.ok (0, false, off)) := by
  unfold var_sizing_row
  rw [if_pos hv, hmu]

/-- A variable-length gather succeeds when index payloads are convertible
and every accumulated prefix of the selected byte lengths fits the offset
width. -/
theorem generic_binary_isOk (maxO : Int) (src : GenericBinaryArray)
    (idx : PrimitiveArray Int)
    (hidx : ∀ i, i < idx.len → idx.isValid i = true →
      0 ≤ idx.values.getD i 0 ∧ idx.values.getD i 0 ≤ usizeMaxI)
    (hacc : ∀ k, k ≤ idx.len →
      ((((List.range idx.len).map (specSelectedByteLen src idx)).take k)).sum ≤ maxO) :
    ∃ out, generic_binary.take maxO src idx = .ok out := by
  have hall : ∀ i ∈ List.range idx.len, ∃ b, var_sizing_row src idx i = .ok b := by
    intro i hi
    by_cases hv : idx.isValid i
    · obtain ⟨h0, h1⟩ := hidx i (List.mem_range.1 hi) hv
      rw [var_sizing_row_of_ok (maybe_usize_of_bounds h0 h1) hv]
      by_cases hsv : src.isValid (idx.values.getD i 0).toNat
      · rw [if_pos hsv]
        exact ⟨_, rfl⟩
      · rw [if_neg hsv]
        exact ⟨_, rfl⟩
    · unfold var_sizing_row
      rw [if_neg hv]
      exact ⟨_, rfl⟩
  obtain ⟨rows, hrows⟩ := tryCollect_isOk hall
  have hlens := gb_lens_eq hrows
  have haccok : ∀ k, k ≤ ((List.range idx.len).map (specSelectedByteLen src idx)).length →
      (0 : Int) + ((((List.range idx.len).map (specSelectedByteLen src idx)).take k)).sum ≤ maxO := by
    intro k hk
    rw [zero_add]
    exact hacc k (by simpa using hk)
  obtain ⟨offs, hoffs⟩ := acc_offsets_isOk haccok
  refine ⟨⟨0 :: offs,
    (rows.map fun r =>
      if r.2.1 then
        slice src.values (src.offsets.getD r.2.2 0) (src.offsets.getD (r.2.2 + 1) 0)
      else []).flatten,
    combineValidity idx.validity src.validity (rows.map fun r => r.2.1)⟩, ?_⟩
  unfold generic_binary.take
  simp only [hrows]
  rw [hlens, hoffs]

/-- When the selected byte total exceeds the offset width, the
variable-length gather reports the overflow fault. -/
theorem generic_binary_overflow (maxO : Int) (src : GenericBinaryArray)
    (idx : PrimitiveArray Int)
    (hwf : src.wf maxO = true)
    (hidx : ∀ i, i < idx.len → idx.isValid i = true →
      0 ≤ idx.values.getD i 0 ∧ idx.values.getD i 0 ≤ usizeMaxI ∧
        (idx.values.getD i 0).toNat < src.len)
    (hover : maxO < specTotalBytes src idx) :
    generic_binary.take maxO src idx = .error ArrowError.Overflow := by
  obtain ⟨hne, h0, hpair, hlast, hmax, hval⟩ := gb_wf_spec hwf
  have hall : ∀ i ∈ List.range idx.len, ∃ b, var_sizing_row src idx i = .ok b := by
    intro i hi
    by_cases hv : idx.isValid i
    · obtain ⟨hb0, hb1, -⟩ := hidx i (List.mem_range.1 hi) hv
      rw [var_sizing_row_of_ok (maybe_usize_of_bounds hb0 hb1) hv]
      by_cases hsv : src.isValid (idx.values.getD i 0).toNat
      · rw [if_pos hsv]
        exact ⟨_, rfl⟩
      · rw [if_neg hsv]
        exact ⟨_, rfl⟩
    · unfold var_sizing_row
      rw [if_neg hv]
      exact ⟨_, rfl⟩
  obtain ⟨rows, hrows⟩ := tryCollect_isOk hall
  have hlens := gb_lens_eq hrows
  have hnonneg := spec_len_nonneg hwf (fun i hi hv => (hidx i hi hv).2.2)
  have hmaxnn : (0 : Int) ≤ maxO := by
    have hmono := getD_mono hpair 0 (src.offsets.length - 1) (by omega) (by omega)
    rw [h0] at hmono
    exact le_trans hmono hmax
  have herr : acc_offsets maxO ((List.range idx.len).map (specSelectedByteLen src idx)) 0 =
      .error ArrowError.Overflow := by
    apply acc_offsets_overflow hnonneg hmaxnn
    rw [zero_add]
    exact hover
  unfold generic_binary.take
  simp only [hrows]
  rw [hlens, herr]

theorem toNat_intOfNat (n : Nat) : (Int.ofNat n).toNat = n := rfl

theorem slice_natCast (bytes : List Nat) (a b : Nat) :
    slice bytes (a : Int) (b : Int) = (bytes.drop a).take (b - a) := by
  unfold slice
  rw [Int.toNat_natCast]
  congr 1
  omega

theorem identityIndices_bounds (n : Nat) (hn : (n : Int) ≤ usizeMaxI) :
    ∀ i, i < (identityIndices n).len → (identityIndices n).isValid i = true →
      0 ≤ (identityIndices n).values.getD i 0 ∧
        (identityIndices n).values.getD i 0 ≤ usizeMaxI := by
  intro i hi _
  rw [identityIndices_getD (by rwa [identityIndices_len] at hi)]
  constructor
  · exact Int.ofNat_nonneg i
  · have hlt : i < n := by rwa [identityIndices_len] at hi
    have hle : (i : Int) ≤ (n : Int) := by exact_mod_cast Nat.le_of_lt hlt
    calc (Int.ofNat i) = (i : Int) := rfl
      _ ≤ (n : Int) := hle
      _ ≤ usizeMaxI := hn

/-- Gathering a well-formed variable-length array with the identity index
sequence succeeds and reproduces it row by row (validity and byte
content). -/
theorem generic_binary_identity (maxO : Int) (src : GenericBinaryArray)
    (hwf : src.wf maxO = true) (hn : (src.len : Int) ≤ usizeMaxI) :
    ∃ out, generic_binary.take maxO src (identityIndices src.len) = .ok out ∧
      out.offsets.length = src.len + 1 ∧
      (∀ i, i < src.len → out.isValid i = src.isValid i) ∧
      (∀ i, i < src.len →
        slice out.values (out.offsets.getD i 0) (out.offsets.getD (i + 1) 0) =
          (if src.isValid i then
            slice src.values (src.offsets.getD i 0) (src.offsets.getD (i + 1) 0)
          else ([] : List Nat))) := by
  obtain ⟨hne, h0, hpair, hlast, hmax, hval⟩ := gb_wf_spec hwf
  have hlenoff : src.offsets.length = src.len + 1 := by
    unfold GenericBinaryArray.len
    omega
  have hspec : ∀ i, i < src.len →
      specSelectedByteLen src (identityIndices src.len) i =
        (if src.isValid i then src.offsets.getD (i + 1) 0 - src.offsets.getD i 0
         else 0) := by
    intro i hi
    unfold specSelectedByteLen
    rw [if_pos (identityIndices_isValid _ _), identityIndices_getD hi, toNat_intOfNat]
  have hlens2 : (List.range (identityIndices src.len).len).map
      (specSelectedByteLen src (identityIndices src.len)) =
      (List.range src.len).map
        (fun j => if src.isValid j then src.offsets.getD (j + 1) 0 - src.offsets.getD j 0
         else 0) := by
    rw [identityIndices_len]
    apply List.map_congr_left
    intro j hj
    exact hspec j (List.mem_range.1 hj)
  have hprefix_le : ∀ k, k ≤ src.len →
      (((List.range src.len).map
        (fun j => if src.isValid j then src.offsets.getD (j + 1) 0 - src.offsets.getD j 0
         else 0)).take k).sum ≤ maxO := by
    intro k hk
    rw [← List.map_take, List.take_range, Nat.min_eq_left hk]
    calc ((List.range k).map
          (fun j => if src.isValid j then src.offsets.getD (j + 1) 0 - src.offsets.getD j 0
           else 0)).sum
        ≤ ((List.range k).map
            (fun j => src.offsets.getD (j + 1) 0 - src.offsets.getD j 0)).sum := by
          apply List.sum_le_sum
          intro j hj
          have hjk : j < k := List.mem_range.1 hj
          have hd : 0 ≤ src.offsets.getD (j + 1) 0 - src.offsets.getD j 0 := by
            have := hpair j (by omega)
            omega
          by_cases hsv : src.isValid j
          · rw [if_pos hsv]
          · rw [if_neg hsv]
            exact hd
      _ = src.offsets.getD k 0 - src.offsets.getD 0 0 := telescope_sum k (by omega)
      _ = src.offsets.getD k 0 := by rw [h0]; ring
      _ ≤ src.offsets.getD (src.offsets.length - 1) 0 :=
          getD_mono hpair k (src.offsets.length - 1) (by omega) (by omega)
      _ ≤ maxO := hmax
  have hprefix : ∀ k, k ≤ (identityIndices src.len).len →
      ((((List.range (identityIndices src.len).len).map
        (specSelectedByteLen src (identityIndices src.len))).take k)).sum ≤ maxO := by
    intro k hk
    rw [hlens2]
    exact hprefix_le k (by rwa [identityIndices_len] at hk)
  obtain ⟨out, hout⟩ := generic_binary_isOk maxO src (identityIndices src.len)
    (identityIndices_bounds src.len hn) hprefix
  obtain ⟨offs, hacc, hoffs, hvals, hvalid⟩ := generic_binary_ok hout
  have houtlen : out.offsets.length = src.len + 1 := by
    have := generic_binary_len hout
    rwa [identityIndices_len] at this
  refine ⟨out, hout, houtlen, ?_, ?_⟩
  · intro i hi
    have hv := generic_binary_valid hout i (by rwa [identityIndices_len])
    rw [identityIndices_isValid, if_pos rfl, identityIndices_getD hi, toNat_intOfNat] at hv
    exact hv
  · intro i hi
    have hspans : specConcatBytes src (identityIndices src.len) =
        ((List.range src.len).map fun j =>
          if src.isValid j then
            slice src.values (src.offsets.getD j 0) (src.offsets.getD (j + 1) 0)
          else []).flatten := by
      unfold specConcatBytes
      rw [identityIndices_len]
      congr 1
      apply List.map_congr_left
      intro j hj
      have hj2 : j < src.len := List.mem_range.1 hj
      rw [if_pos (identityIndices_isValid _ _), identityIndices_getD hj2, toNat_intOfNat]
    have hspans_total : ((List.range src.len).map fun j =>
        if src.isValid j then
          slice src.values (src.offsets.getD j 0) (src.offsets.getD (j + 1) 0)
        else ([] : List Nat)).length = src.len := by
      simp
    have hspans_elem : ∀ j, j < src.len →
        (((List.range src.len).map fun j =>
          if src.isValid j then
            slice src.values (src.offsets.getD j 0) (src.offsets.getD (j + 1) 0)
          else ([] : List Nat)).getD j []) =
          (if src.isValid j then
            slice src.values (src.offsets.getD j 0) (src.offsets.getD (j + 1) 0)
          else []) := by
      intro j hj
      rw [List.getD_eq_getElem _ _ (by simpa using hj)]
      simp only [List.getElem_map]
      rw [List.getElem_range]
    have hspanlen : ∀ j, j < src.len →
        ((((List.range src.len).map fun j =>
          if src.isValid j then
            slice src.values (src.offsets.getD j 0) (src.offsets.getD (j + 1) 0)
          else ([] : List Nat)).getD j []).length : Int) =
          (if src.isValid j then src.offsets.getD (j + 1) 0 - src.offsets.getD j 0
           else 0) := by
      intro j hj
      rw [hspans_elem j hj]
      by_cases hsv : src.isValid j
      · rw [if_pos hsv, if_pos hsv]
        have hA0 : 0 ≤ src.offsets.getD j 0 := by
          have := getD_mono hpair 0 j (by omega) (by omega)
          rw [h0] at this
          exact this
        have hAB : src.offsets.getD j 0 ≤ src.offsets.getD (j + 1) 0 := hpair j (by omega)
        have hBL : src.offsets.getD (j + 1) 0 ≤ (src.values.length : Int) := by
          have := getD_mono hpair (j + 1) (src.offsets.length - 1) (by omega) (by omega)
          rw [hlast] at this
          exact this
        unfold slice
        rw [List.length_take, List.length_drop]
        omega
      · rw [if_neg hsv, if_neg hsv]
        rfl
    have hsum : ∀ k, k ≤ src.len →
        (((List.range src.len).map
          (fun j => if src.isValid j then src.offsets.getD (j + 1) 0 - src.offsets.getD j 0
           else 0)).take k).sum =
        (((((List.range src.len).map fun j =>
          if src.isValid j then
            slice src.values (src.offsets.getD j 0) (src.offsets.getD (j + 1) 0)
          else ([] : List Nat)).take k).map List.length).sum : Int) := by
      intro k hk
      rw [← List.map_take, List.take_range, Nat.min_eq_left hk]
      rw [← List.map_take, List.take_range, Nat.min_eq_left hk]
      rw [List.map_map, Nat.cast_list_sum, List.map_map]
      congr 1
      apply List.map_congr_left
      intro j hj
      have hjk : j < src.len := by
        have := List.mem_range.1 hj
        omega
      have := hspanlen j hjk
      rw [hspans_elem j hjk] at this
      simp only [Function.comp]
      rw [← this]
    have hP : ∀ k, k ≤ src.len →
        out.offsets.getD k 0 =
        (((((List.range src.len).map fun j =>
          if src.isValid j then
            slice src.values (src.offsets.getD j 0) (src.offsets.getD (j + 1) 0)
          else ([] : List Nat)).take k).map List.length).sum : Int) := by
      intro k hk
      cases k with
      | zero =>
        rw [hoffs]
        simp
      | succ m =>
        rw [hoffs]
        simp only [List.getD_cons_succ]
        rw [acc_offsets_get hacc m (by simp [identityIndices_len]; omega)]
        rw [zero_add, hlens2]
        exact hsum (m + 1) hk
    have hPi := hP i (Nat.le_of_lt hi)
    have hPi1 := hP (i + 1) hi
    rw [hvals, hspans, hPi, hPi1]
    rw [slice_natCast]
    have hdiff : (((((List.range src.len).map fun j =>
          if src.isValid j then
            slice src.values (src.offsets.getD j 0) (src.offsets.getD (j + 1) 0)
          else ([] : List Nat)).take (i + 1)).map List.length).sum) -
        ((((((List.range src.len).map fun j =>
          if src.isValid j then
            slice src.values (src.offsets.getD j 0) (src.offsets.getD (j + 1) 0)
          else ([] : List Nat)).take i).map List.length).sum)) =
        (((List.range src.len).map fun j =>
          if src.isValid j then
            slice src.values (src.offsets.getD j 0) (src.offsets.getD (j + 1) 0)
          else ([] : List Nat)).getD i []).length := by
      rw [sum_map_take_succ List.length _ [] i (by rw [hspans_total]; exact hi)]
      omega
    rw [hdiff]
    rw [flatten_extract _ i (by rw [hspans_total]; exact hi)]
    exact hspans_elem i hi

/-! Lemmas about the dispatcher. -/

theorem liftOutcome_ok {β : Type} {g : β → Array} {e : Except ArrowError β} {out : Array}
    (h : liftOutcome g e = .ok out) : ∃ b, e = .ok b ∧ out = g b := by
  cases e with
  | error e2 => simp [liftOutcome] at h
  | ok b =>
    refine ⟨b, rfl, ?_⟩
    unfold liftOutcome at h
    injection h with h
    exact h.symm

theorem downcast_take_eq_primitive (nt : NativeType) (dt : DataType) (nt2 : NativeType)
    (a : PrimitiveArray Int) (idx : PrimitiveArray Int) :
    downcast_take nt (.primitive dt nt2 a) idx =
      if nt2 = nt then liftOutcome (Array.primitive dt nt2) (primitive.take a idx)
      else .panicked msgDowncastPrimitive := rfl

theorem downcast_take_ok {nt : NativeType} {dt : DataType} {nt2 : NativeType}
    {a : PrimitiveArray Int} {idx : PrimitiveArray Int} {out : Array}
    (h : downcast_take nt (.primitive dt nt2 a) idx = .ok out) :
    ∃ r, primitive.take a idx = .ok r ∧ out = .primitive dt nt2 r := by
  rw [downcast_take_eq_primitive] at h
  split at h
  · obtain ⟨b, hb, hout⟩ := liftOutcome_ok h
    exact ⟨b, hb, hout⟩
  · cases h

theorem downcast_dict_take_eq (keyDt : DataType) (keys : PrimitiveArray Int) (pool : Array)
    (idx : PrimitiveArray Int) :
    downcast_dict_take (.dict keyDt keys pool) idx =
      (match dict.take (DictionaryArray.mk keys pool) idx with
      | .error e => .error e
      | .ok d => .ok (.dict keyDt d.keys d.values)) := rfl

theorem downcast_dict_ok {keyDt : DataType} {keys : PrimitiveArray Int} {pool : Array}
    {idx : PrimitiveArray Int} {out : Array}
    (h : downcast_dict_take (.dict keyDt keys pool) idx = .ok out) :
    ∃ r, primitive.take keys idx = .ok r ∧ out = .dict keyDt r pool := by
  rw [downcast_dict_take_eq] at h
  cases hd : dict.take (DictionaryArray.mk keys pool) idx with
  | error e => rw [hd] at h; cases h
  | ok d =>
    rw [hd] at h
    injection h with h
    unfold dict.take at hd
    cases hp : primitive.take keys idx with
    | error e => rw [hp] at hd; cases hd
    | ok r =>
      rw [hp] at hd
      injection hd with hd
      refine ⟨r, rfl, ?_⟩
      rw [← h, ← hd]

/-- Every successful dispatch decomposes into one of the five per-encoding
gathers. -/
theorem take_ok_shape {values : Array} {idx : PrimitiveArray Int} {out : Array}
    (h : take values idx = .ok out) :
    (∃ a b, values = .boolean a ∧ take_fixed false a idx = .ok b ∧ out = .boolean b) ∨
    (∃ dt nt a r, values = .primitive dt nt a ∧ take_fixed (0 : Int) a idx = .ok r ∧
      out = .primitive dt nt r) ∨
    (∃ w a b, values = .utf8 w a ∧ generic_binary.take (maxOffsetOf w) a idx = .ok b ∧
      out = .utf8 w b) ∨
    (∃ w a b, values = .binary w a ∧ generic_binary.take (maxOffsetOf w) a idx = .ok b ∧
      out = .binary w b) ∨
    (∃ kdt keys pool r, values = .dict kdt keys pool ∧ take_fixed (0 : Int) keys idx = .ok r ∧
      out = .dict kdt r pool) := by
  cases values with
  | boolean a =>
    obtain ⟨b, hb, hout⟩ := liftOutcome_ok h
    exact Or.inl ⟨a, b, rfl, hb, hout⟩
  | primitive dt nt a =>
    cases dt with
    | Boolean => exact TakeOutcome.noConfusion h
    | Float16 => exact TakeOutcome.noConfusion h
    | Utf8 => exact TakeOutcome.noConfusion h
    | LargeUtf8 => exact TakeOutcome.noConfusion h
    | Binary => exact TakeOutcome.noConfusion h
    | LargeBinary => exact TakeOutcome.noConfusion h
    | Null => exact TakeOutcome.noConfusion h
    | List t => exact TakeOutcome.noConfusion h
    | FixedSizeBinary n => exact TakeOutcome.noConfusion h
    | Dictionary k v => cases k <;> exact TakeOutcome.noConfusion h
    | Interval u =>
      cases u with
      | YearMonth =>
        obtain ⟨r, hr, hout⟩ := downcast_take_ok h
        exact Or.inr (Or.inl ⟨_, _, _, r, rfl, hr, hout⟩)
      | DayTime => exact TakeOutcome.noConfusion h
    | Int8 =>
      obtain ⟨r, hr, hout⟩ := downcast_take_ok h
      exact Or.inr (Or.inl ⟨_, _, _, r, rfl, hr, hout⟩)
    | Int16 =>
      obtain ⟨r, hr, hout⟩ := downcast_take_ok h
      exact Or.inr (Or.inl ⟨_, _, _, r, rfl, hr, hout⟩)
    | Int32 =>
      obtain ⟨r, hr, hout⟩ := downcast_take_ok h
      exact Or.inr (Or.inl ⟨_, _, _, r, rfl, hr, hout⟩)
    | Int64 =>
      obtain ⟨r, hr, hout⟩ := downcast_take_ok h
      exact Or.inr (Or.inl ⟨_, _, _, r, rfl, hr, hout⟩)
    | UInt8 =>
      obtain ⟨r, hr, hout⟩ := downcast_take_ok h
      exact Or.inr (Or.inl ⟨_, _, _, r, rfl, hr, hout⟩)
    | UInt16 =>
      obtain ⟨r, hr, hout⟩ := downcast_take_ok h
      exact Or.inr (Or.inl ⟨_, _, _, r, rfl, hr, hout⟩)
    | UInt32 =>
      obtain ⟨r, hr, hout⟩ := downcast_take_ok h
      exact Or.inr (Or.inl ⟨_, _, _, r, rfl, hr, hout⟩)
    | UInt64 =>
      obtain ⟨r, hr, hout⟩ := downcast_take_ok h
      exact Or.inr (Or.inl ⟨_, _, _, r, rfl, hr, hout⟩)
    | Float32 =>
      obtain ⟨r, hr, hout⟩ := downcast_take_ok h
      exact Or.inr (Or.inl ⟨_, _, _, r, rfl, hr, hout⟩)
    | Float64 =>
      obtain ⟨r, hr, hout⟩ := downcast_take_ok h
      exact Or.inr (Or.inl ⟨_, _, _, r, rfl, hr, hout⟩)
    | Decimal p sc =>
      obtain ⟨r, hr, hout⟩ := downcast_take_ok h
      exact Or.inr (Or.inl ⟨_, _, _, r, rfl, hr, hout⟩)
    | Date32 =>
      obtain ⟨r, hr, hout⟩ := downcast_take_ok h
      exact Or.inr (Or.inl ⟨_, _, _, r, rfl, hr, hout⟩)
    | Date64 =>
      obtain ⟨r, hr, hout⟩ := downcast_take_ok h
      exact Or.inr (Or.inl ⟨_, _, _, r, rfl, hr, hout⟩)
    | Time32 u =>
      obtain ⟨r, hr, hout⟩ := downcast_take_ok h
      exact Or.inr (Or.inl ⟨_, _, _, r, rfl, hr, hout⟩)
    | Time64 u =>
      obtain ⟨r, hr, hout⟩ := downcast_take_ok h
      exact Or.inr (Or.inl ⟨_, _, _, r, rfl, hr, hout⟩)
    | Duration u =>
      obtain ⟨r, hr, hout⟩ := downcast_take_ok h
      exact Or.inr (Or.inl ⟨_, _, _, r, rfl, hr, hout⟩)
    | Timestamp u tz =>
      obtain ⟨r, hr, hout⟩ := downcast_take_ok h
      exact Or.inr (Or.inl ⟨_, _, _, r, rfl, hr, hout⟩)
  | utf8 w a =>
    cases w with
    | w32 =>
      obtain ⟨b, hb, hout⟩ := liftOutcome_ok h
      exact Or.inr (Or.inr (Or.inl ⟨.w32, a, b, rfl, hb, hout⟩))
    | w64 =>
      obtain ⟨b, hb, hout⟩ := liftOutcome_ok h
      exact Or.inr (Or.inr (Or.inl ⟨.w64, a, b, rfl, hb, hout⟩))
  | binary w a =>
    cases w with
    | w32 =>
      obtain ⟨b, hb, hout⟩ := liftOutcome_ok h
      exact Or.inr (Or.inr (Or.inr (Or.inl ⟨.w32, a, b, rfl, hb, hout⟩)))
    | w64 =>
      obtain ⟨b, hb, hout⟩ := liftOutcome_ok h
      exact Or.inr (Or.inr (Or.inr (Or.inl ⟨.w64, a, b, rfl, hb, hout⟩)))
  | dict kdt keys pool =>
    cases kdt with
    | Int8 =>
      obtain ⟨r, hr, hout⟩ := downcast_dict_ok h
      exact Or.inr (Or.inr (Or.inr (Or.inr ⟨_, keys, pool, r, rfl, hr, hout⟩)))
    | Int16 =>
      obtain ⟨r, hr, hout⟩ := downcast_dict_ok h
      exact Or.inr (Or.inr (Or.inr (Or.inr ⟨_, keys, pool, r, rfl, hr, hout⟩)))
    | Int32 =>
      obtain ⟨r, hr, hout⟩ := downcast_dict_ok h
      exact Or.inr (Or.inr (Or.inr (Or.inr ⟨_, keys, pool, r, rfl, hr, hout⟩)))
    | Int64 =>
      obtain ⟨r, hr, hout⟩ := downcast_dict_ok h
      exact Or.inr (Or.inr (Or.inr (Or.inr ⟨_, keys, pool, r, rfl, hr, hout⟩)))
    | UInt8 =>
      obtain ⟨r, hr, hout⟩ := downcast_dict_ok h
      exact Or.inr (Or.inr (Or.inr (Or.inr ⟨_, keys, pool, r, rfl, hr, hout⟩)))
    | UInt16 =>
      obtain ⟨r, hr, hout⟩ := downcast_dict_ok h
      exact Or.inr (Or.inr (Or.inr (Or.inr ⟨_, keys, pool, r, rfl, hr, hout⟩)))
    | UInt32 =>
      obtain ⟨r, hr, hout⟩ := downcast_dict_ok h
      exact Or.inr (Or.inr (Or.inr (Or.inr ⟨_, keys, pool, r, rfl, hr, hout⟩)))
    | UInt64 =>
      obtain ⟨r, hr, hout⟩ := downcast_dict_ok h
      exact Or.inr (Or.inr (Or.inr (Or.inr ⟨_, keys, pool, r, rfl, hr, hout⟩)))
    | Boolean => exact TakeOutcome.noConfusion h
    | Float16 => exact TakeOutcome.noConfusion h
    | Float32 => exact TakeOutcome.noConfusion h
    | Float64 => exact TakeOutcome.noConfusion h
    | Decimal p sc => exact TakeOutcome.noConfusion h
    | Date32 => exact TakeOutcome.noConfusion h
    | Date64 => exact TakeOutcome.noConfusion h
    | Time32 u => exact TakeOutcome.noConfusion h
    | Time64 u => exact TakeOutcome.noConfusion h
    | Timestamp u tz => exact TakeOutcome.noConfusion h
    | Duration u => exact TakeOutcome.noConfusion h
    | Interval u => exact TakeOutcome.noConfusion h
    | Utf8 => exact TakeOutcome.noConfusion h
    | LargeUtf8 => exact TakeOutcome.noConfusion h
    | Binary => exact TakeOutcome.noConfusion h
    | LargeBinary => exact TakeOutcome.noConfusion h
    | Dictionary k v => exact TakeOutcome.noConfusion h
    | Null => exact TakeOutcome.noConfusion h
    | List t => exact TakeOutcome.noConfusion h
    | FixedSizeBinary n => exact TakeOutcome.noConfusion h

/-- A payload outside the platform word makes the checked conversion fail
with the typed overflow error. -/
theorem maybe_usize_err {p : Int} (h : p < 0 ∨ usizeMaxI < p) :
    maybe_usize p = .error ArrowError.DictionaryKeyOverflowError := by
  have hc : ¬(0 ≤ p ∧ p ≤ usizeMaxI) := by
    intro hc2
    rcases h with h1 | h2
    · exact absurd hc2.1 (not_le.mpr h1)
    · exact absurd hc2.2 (not_le.mpr h2)
  unfold maybe_usize
  rw [if_neg hc]

/-- The checked conversion fails only with the typed overflow error. -/
theorem maybe_usize_err_eq {p : Int} {e : ArrowError} (h : maybe_usize p = .error e) :
    e = ArrowError.DictionaryKeyOverflowError := by
  unfold maybe_usize at h
  by_cases hc : 0 ≤ p ∧ p ≤ usizeMaxI
  · rw [if_pos hc] at h
    exact Except.noConfusion h
  · rw [if_neg hc] at h
    injection h with h2
    exact h2.symm

/-- The fallible map fails with the error of one of its rows whenever some
row fails. -/
theorem tryCollect_errors {α β : Type} {f : α → Except ArrowError β} :
    ∀ {l : List α}, (∃ a ∈ l, ∃ e, f a = .error e) →
      ∃ e, tryCollect f l = .error e ∧ ∃ a ∈ l, f a = .error e := by
  intro l
  induction l with
  | nil =>
    intro hex
    obtain ⟨a, ha, -⟩ := hex
    exact absurd ha (List.not_mem_nil a)
  | cons a rest ih =>
    intro hex
    cases hfa : f a with
    | error e =>
      refine ⟨e, ?_, a, List.mem_cons_self a rest, hfa⟩
      unfold tryCollect
      rw [hfa]
    | ok b =>
      have hrest : ∃ x ∈ rest, ∃ e2, f x = .error e2 := by
        obtain ⟨x, hx, e2, hxe⟩ := hex
        rcases List.mem_cons.mp hx with hxa | hxr
        · rw [hxa, hfa] at hxe
          exact Except.noConfusion hxe
        · exact ⟨x, hxr, e2, hxe⟩
      obtain ⟨e, hte, x, hxr, hxe⟩ := ih hrest
      refine ⟨e, ?_, x, List.mem_cons_of_mem a hxr, hxe⟩
      unfold tryCollect
      rw [hfa, hte]

/-- A valid index slot with an out-of-range payload makes a fixed-width
gather row fail with the typed overflow error. -/
theorem take_fixed_row_err {α : Type} (dflt : α) (src : PrimitiveArray α)
    (idx : PrimitiveArray Int) {i : Nat} (hv : idx.isValid i = true)
    (hr : idx.values.getD i 0 < 0 ∨ usizeMaxI < idx.values.getD i 0) :
    take_fixed_row dflt src idx i = .error ArrowError.DictionaryKeyOverflowError := by
  unfold take_fixed_row
  rw [if_pos hv, maybe_usize_err hr]

/-- A fixed-width gather row fails only with the typed overflow error. -/
theorem take_fixed_row_err_eq {α : Type} {dflt : α} {src : PrimitiveArray α}
    {idx : PrimitiveArray Int} {j : Nat} {e : ArrowError}
    (h : take_fixed_row dflt src idx j = .error e) :
    e = ArrowError.DictionaryKeyOverflowError := by
  unfold take_fixed_row at h
  by_cases hv : idx.isValid j
  · rw [if_pos hv] at h
    cases hmu : maybe_usize (idx.values.getD j 0) with
    | error e2 =>
      rw [hmu] at h
      injection h with h2
      rw [← h2]
      exact maybe_usize_err_eq hmu
    | ok off =>
      rw [hmu] at h
      exact Except.noConfusion h
  · rw [if_neg hv] at h
    exact Except.noConfusion h

/-- A valid index slot with an out-of-range payload makes the fixed-width
gather fail with the typed overflow error. -/
theorem take_fixed_err {α : Type} (dflt : α) (src : PrimitiveArray α)
    (idx : PrimitiveArray Int)
    (hbad : ∃ i, i < idx.len ∧ idx.isValid i = true ∧
      (idx.values.getD i 0 < 0 ∨ usizeMaxI < idx.values.getD i 0)) :
    take_fixed dflt src idx = .error ArrowError.DictionaryKeyOverflowError := by
  obtain ⟨i, hi, hv, hr⟩ := hbad
  have hex : ∃ k ∈ List.range idx.len, ∃ e, take_fixed_row dflt src idx k = .error e :=
    ⟨i, List.mem_range.2 hi, ArrowError.DictionaryKeyOverflowError,
      take_fixed_row_err dflt src idx hv hr⟩
  obtain ⟨e, hte, j, hj, hje⟩ := tryCollect_errors hex
  have he : e = ArrowError.DictionaryKeyOverflowError := take_fixed_row_err_eq hje
  unfold take_fixed
  rw [hte, he]

/-- A valid index slot with an out-of-range payload makes a sizing-pass
row fail with the typed overflow error. -/
theorem var_sizing_row_err (src : GenericBinaryArray) (idx : PrimitiveArray Int)
    {i : Nat} (hv : idx.isValid i = true)
    (hr : idx.values.getD i 0 < 0 ∨ usizeMaxI < idx.values.getD i 0) :
    var_sizing_row src idx i = .error ArrowError.DictionaryKeyOverflowError := by
  unfold var_sizing_row
  rw [if_pos hv, maybe_usize_err hr]

/-- A sizing-pass row fails only with the typed overflow error. -/
theorem var_sizing_row_err_eq {src : GenericBinaryArray} {idx : PrimitiveArray Int}
    {j : Nat} {e : ArrowError} (h : var_sizing_row src idx j = .error e) :
    e = ArrowError.DictionaryKeyOverflowError := by
  unfold var_sizing_row at h
  by_cases hv : idx.isValid j
  · rw [if_pos hv] at h
    cases hmu : maybe_usize (idx.values.getD j 0) with
    | error e2 =>
      rw [hmu] at h
      injection h with h2
      rw [← h2]
      exact maybe_usize_err_eq hmu
    | ok off =>
      simp only [hmu] at h
      by_cases hsv : src.isValid off
      · rw [if_pos hsv] at h
        exact Except.noConfusion h
      · rw [if_neg hsv] at h
        exact Except.noConfusion h
  · rw [if_neg hv] at h
    exact Except.noConfusion h

/-- A valid index slot with an out-of-range payload makes the
variable-length gather fail with the typed overflow error. -/
theorem generic_binary_err (maxO : Int) (src : GenericBinaryArray)
    (idx : PrimitiveArray Int)
    (hbad : ∃ i, i < idx.len ∧ idx.isValid i = true ∧
      (idx.values.getD i 0 < 0 ∨ usizeMaxI < idx.values.getD i 0)) :
    generic_binary.take maxO src idx = .error ArrowError.DictionaryKeyOverflowError := by
  obtain ⟨i, hi, hv, hr⟩ := hbad
  have hex : ∃ k ∈ List.range idx.len, ∃ e, var_sizing_row src idx k = .error e :=
    ⟨i, List.mem_range.2 hi, ArrowError.DictionaryKeyOverflowError,
      var_sizing_row_err src idx hv hr⟩
  obtain ⟨e, hte, j, hj, hje⟩ := tryCollect_errors hex
  have he : e = ArrowError.DictionaryKeyOverflowError := var_sizing_row_err_eq hje
  unfold generic_binary.take
  rw [hte, he]

/-- A successful fixed-width gather certifies that every valid index slot
held an in-range payload. -/
theorem take_fixed_ok_inrange {α : Type} {dflt : α} {src : PrimitiveArray α}
    {idx : PrimitiveArray Int} {out : PrimitiveArray α}
    (h : take_fixed dflt src idx = .ok out) :
    ∀ i, i < idx.len → idx.isValid i = true →
      0 ≤ idx.values.getD i 0 ∧ idx.values.getD i 0 ≤ usizeMaxI := by
  intro i hi hv
  by_cases h0 : 0 ≤ idx.values.getD i 0 ∧ idx.values.getD i 0 ≤ usizeMaxI
  · exact h0
  · have hr : idx.values.getD i 0 < 0 ∨ usizeMaxI < idx.values.getD i 0 := by
      rcases not_and_or.mp h0 with h1 | h2
      · exact Or.inl (not_le.mp h1)
      · exact Or.inr (not_le.mp h2)
    have herr := take_fixed_err dflt src idx ⟨i, hi, hv, hr⟩
    rw [h] at herr
    exact Except.noConfusion herr

/-- A successful variable-length gather certifies that every valid index
slot held an in-range payload. -/
theorem generic_binary_ok_inrange {maxO : Int} {src : GenericBinaryArray}
    {idx : PrimitiveArray Int} {out : GenericBinaryArray}
    (h : generic_binary.take maxO src idx = .ok out) :
    ∀ i, i < idx.len → idx.isValid i = true →
      0 ≤ idx.values.getD i 0 ∧ idx.values.getD i 0 ≤ usizeMaxI := by
  intro i hi hv
  by_cases h0 : 0 ≤ idx.values.getD i 0 ∧ idx.values.getD i 0 ≤ usizeMaxI
  · exact h0
  · have hr : idx.values.getD i 0 < 0 ∨ usizeMaxI < idx.values.getD i 0 := by
      rcases not_and_or.mp h0 with h1 | h2
      · exact Or.inl (not_le.mp h1)
      · exact Or.inr (not_le.mp h2)
    have herr := generic_binary_err maxO src idx ⟨i, hi, hv, hr⟩
    rw [h] at herr
    exact Except.noConfusion herr

/-- Dispatcher reduction on a boolean column. -/
theorem take_boolean_eq (a : BooleanArray) (idx : PrimitiveArray Int) :
    take (.boolean a) idx = liftOutcome Array.boolean (boolean.take a idx) := rfl

/-- Dispatcher reduction on a utf8 column. -/
theorem take_utf8_eq (w : OffsetWidth) (a : GenericBinaryArray) (idx : PrimitiveArray Int) :
    take (.utf8 w a) idx = liftOutcome (Array.utf8 w) (utf8.take w a idx) := by
  cases w <;> rfl

/-- Dispatcher reduction on a binary column. -/
theorem take_binary_eq (w : OffsetWidth) (a : GenericBinaryArray) (idx : PrimitiveArray Int) :
    take (.binary w a) idx = liftOutcome (Array.binary w) (binary.take w a idx) := by
  cases w <;> rfl

/-- Dispatcher reduction on a primitive column whose tag pairs with its
native type: the downcast succeeds and the fixed-width gather runs. -/
theorem take_primitive_eq (dt : DataType) (nt : NativeType) (a : PrimitiveArray Int)
    (idx : PrimitiveArray Int) (h : primPair dt nt = true) :
    take (.primitive dt nt a) idx =
      liftOutcome (Array.primitive dt nt) (primitive.take a idx) := by
  cases dt <;> first
    | (cases nt <;> (first | rfl | exact Bool.noConfusion h))
    | (rename_i u
       cases u <;> cases nt <;> (first | rfl | exact Bool.noConfusion h))

/-- Dispatcher reduction on a dictionary column with a supported key
type: the dictionary downcast runs. -/
theorem take_dict_eq (keyDt : DataType) (keys : PrimitiveArray Int) (pool : Array)
    (idx : PrimitiveArray Int) (h : dictKeySupported keyDt = true) :
    take (.dict keyDt keys pool) idx = downcast_dict_take (.dict keyDt keys pool) idx := by
  cases keyDt <;> (first | rfl | exact Bool.noConfusion h)

/-- A supported column never panics: the dispatcher always hands the
caller a result, either a new column or a typed error. -/
theorem take_supported_total (values : Array) (idx : PrimitiveArray Int)
    (h : values.supported = true) :
    (∃ out, take values idx = TakeOutcome.ok out) ∨
      (∃ e, take values idx = TakeOutcome.error e) := by
  cases values with
  | boolean a =>
    rw [take_boolean_eq]
    cases hb : boolean.take a idx with
    | error e => exact Or.inr ⟨e, rfl⟩
    | ok b => exact Or.inl ⟨Array.boolean b, rfl⟩
  | primitive dt nt a =>
    rw [take_primitive_eq dt nt a idx h]
    cases hp : primitive.take a idx with
    | error e => exact Or.inr ⟨e, rfl⟩
    | ok r => exact Or.inl ⟨Array.primitive dt nt r, rfl⟩
  | utf8 w a =>
    rw [take_utf8_eq]
    cases hb : utf8.take w a idx with
    | error e => exact Or.inr ⟨e, rfl⟩
    | ok b => exact Or.inl ⟨Array.utf8 w b, rfl⟩
  | binary w a =>
    rw [take_binary_eq]
    cases hb : binary.take w a idx with
    | error e => exact Or.inr ⟨e, rfl⟩
    | ok b => exact Or.inl ⟨Array.binary w b, rfl⟩
  | dict keyDt keys pool =>
    rw [take_dict_eq keyDt keys pool idx h, downcast_dict_take_eq]
    cases hd : dict.take (DictionaryArray.mk keys pool) idx with
    | error e => exact Or.inr ⟨e, rfl⟩
    | ok d => exact Or.inl ⟨Array.dict keyDt d.keys d.values, rfl⟩

/-- An index-overflow failure in a take on any supported column surfaces
to the caller as the typed overflow error, never as a panic and never as
a default output. -/
theorem take_supported_err (values : Array) (idx : PrimitiveArray Int)
    (h : values.supported = true)
    (hbad : ∃ i, i < idx.len ∧ idx.isValid i = true ∧
      (idx.values.getD i 0 < 0 ∨ usizeMaxI < idx.values.getD i 0)) :
    take values idx = TakeOutcome.error ArrowError.DictionaryKeyOverflowError := by
  cases values with
  | boolean a =>
    rw [take_boolean_eq]
    have hb : boolean.take a idx = .error ArrowError.DictionaryKeyOverflowError :=
      take_fixed_err false a idx hbad
    rw [hb]
    rfl
  | primitive dt nt a =>
    rw [take_primitive_eq dt nt a idx h]
    have hp : primitive.take a idx = .error ArrowError.DictionaryKeyOverflowError :=
      take_fixed_err 0 a idx hbad
    rw [hp]
    rfl
  | utf8 w a =>
    rw [take_utf8_eq]
    have hb : utf8.take w a idx = .error ArrowError.DictionaryKeyOverflowError :=
      generic_binary_err (maxOffsetOf w) a idx hbad
    rw [hb]
    rfl
  | binary w a =>
    rw [take_binary_eq]
    have hb : binary.take w a idx = .error ArrowError.DictionaryKeyOverflowError :=
      generic_binary_err (maxOffsetOf w) a idx hbad
    rw [hb]
    rfl
  | dict keyDt keys pool =>
    rw [take_dict_eq keyDt keys pool idx h, downcast_dict_take_eq]
    have hp : primitive.take keys idx = .error ArrowError.DictionaryKeyOverflowError :=
      take_fixed_err 0 keys idx hbad
    have hd : dict.take (DictionaryArray.mk keys pool) idx =
        .error ArrowError.DictionaryKeyOverflowError := by
      unfold dict.take
      rw [hp]
    rw [hd]

/-- A successful take certifies that every valid index slot held an
in-range payload: an overflow is never swallowed into a default
output. -/
theorem take_ok_inrange {values : Array} {idx : PrimitiveArray Int} {out : Array}
    (h : take values idx = TakeOutcome.ok out) :
    ∀ i, i < idx.len → idx.isValid i = true →
      0 ≤ idx.values.getD i 0 ∧ idx.values.getD i 0 ≤ usizeMaxI := by
  rcases take_ok_shape h with
    ⟨a, b, heq, hb, hout⟩ | ⟨dt, nt, a, r, heq, hr, hout⟩ | ⟨w, a, b, heq, hb, hout⟩ |
    ⟨w2, a2, b2, heq2, hb2, hout2⟩ | ⟨kdt, keys, pool, r, heq3, hr3, hout3⟩
  · exact take_fixed_ok_inrange hb
  · exact take_fixed_ok_inrange hr
  · exact generic_binary_ok_inrange hb
  · exact generic_binary_ok_inrange hb2
  · exact take_fixed_ok_inrange hr3

/-! Congruence of the gathers in the index payloads: only payloads of
valid index slots are ever read. -/

theorem take_fixed_row_congr {α : Type} (dflt : α) (src : PrimitiveArray α)
    {idxA idxB : PrimitiveArray Int}
    (hval : idxA.validity = idxB.validity)
    (hpay : ∀ i, i < idxA.len → idxA.isValid i = true →
      idxA.values.getD i 0 = idxB.values.getD i 0) :
    ∀ i ∈ List.range idxA.len,
      take_fixed_row dflt src idxA i = take_fixed_row dflt src idxB i := by
  have hv : ∀ i, idxA.isValid i = idxB.isValid i := by
    intro i
    unfold PrimitiveArray.isValid
    rw [hval]
  intro i hi
  unfold take_fixed_row
  rw [hv i]
  by_cases hb : idxB.isValid i
  · rw [if_pos hb, if_pos hb]
    rw [hpay i (List.mem_range.1 hi) (by rw [hv i]; exact hb)]
  · rw [if_neg hb, if_neg hb]

theorem take_fixed_congr {α : Type} (dflt : α) (src : PrimitiveArray α)
    {idxA idxB : PrimitiveArray Int}
    (hlen : idxA.len = idxB.len) (hval : idxA.validity = idxB.validity)
    (hpay : ∀ i, i < idxA.len → idxA.isValid i = true →
      idxA.values.getD i 0 = idxB.values.getD i 0) :
    take_fixed dflt src idxA = take_fixed dflt src idxB := by
  unfold take_fixed
  rw [← hlen, ← hval]
  rw [tryCollect_congr (take_fixed_row_congr dflt src hval hpay)]

theorem var_sizing_row_congr (src : GenericBinaryArray)
    {idxA idxB : PrimitiveArray Int}
    (hval : idxA.validity = idxB.validity)
    (hpay : ∀ i, i < idxA.len → idxA.isValid i = true →
      idxA.values.getD i 0 = idxB.values.getD i 0) :
    ∀ i ∈ List.range idxA.len,
      var_sizing_row src idxA i = var_sizing_row src idxB i := by
  have hv : ∀ i, idxA.isValid i = idxB.isValid i := by
    intro i
    unfold PrimitiveArray.isValid
    rw [hval]
  intro i hi
  unfold var_sizing_row
  rw [hv i]
  by_cases hb : idxB.isValid i
  · rw [if_pos hb, if_pos hb]
    rw [hpay i (List.mem_range.1 hi) (by rw [hv i]; exact hb)]
  · rw [if_neg hb, if_neg hb]

theorem generic_binary_congr (maxO : Int) (src : GenericBinaryArray)
    {idxA idxB : PrimitiveArray Int}
    (hlen : idxA.len = idxB.len) (hval : idxA.validity = idxB.validity)
    (hpay : ∀ i, i < idxA.len → idxA.isValid i = true →
      idxA.values.getD i 0 = idxB.values.getD i 0) :
    generic_binary.take maxO src idxA = generic_binary.take maxO src idxB := by
  unfold generic_binary.take
  rw [← hlen, ← hval]
  rw [tryCollect_congr (var_sizing_row_congr src hval hpay)]

theorem downcast_take_congr (nt' : NativeType) (values : Array)
    {idxA idxB : PrimitiveArray Int}
    (hlen : idxA.len = idxB.len) (hval : idxA.validity = idxB.validity)
    (hpay : ∀ i, i < idxA.len → idxA.isValid i = true →
      idxA.values.getD i 0 = idxB.values.getD i 0) :
    downcast_take nt' values idxA = downcast_take nt' values idxB := by
  cases values with
  | primitive dt nt2 a =>
    rw [downcast_take_eq_primitive, downcast_take_eq_primitive]
    by_cases hnt : nt2 = nt'
    · rw [if_pos hnt, if_pos hnt]
      exact congrArg _ (take_fixed_congr 0 a hlen hval hpay)
    · rw [if_neg hnt, if_neg hnt]
  | boolean a => rfl
  | utf8 w a => rfl
  | binary w a => rfl
  | dict kdt keys pool => rfl

theorem downcast_dict_take_congr (values : Array)
    {idxA idxB : PrimitiveArray Int}
    (hlen : idxA.len = idxB.len) (hval : idxA.validity = idxB.validity)
    (hpay : ∀ i, i < idxA.len → idxA.isValid i = true →
      idxA.values.getD i 0 = idxB.values.getD i 0) :
    downcast_dict_take values idxA = downcast_dict_take values idxB := by
  cases values with
  | dict kdt keys pool =>
    have hd : dict.take (DictionaryArray.mk keys pool) idxA =
        dict.take (DictionaryArray.mk keys pool) idxB := by
      unfold dict.take
      rw [show primitive.take keys idxA = primitive.take keys idxB from
        take_fixed_congr 0 keys hlen hval hpay]
    exact congrArg
      (fun e => match e with
        | Except.error e2 => TakeOutcome.error e2
        | Except.ok d => TakeOutcome.ok (.dict kdt d.keys d.values)) hd
  | boolean a => rfl
  | primitive dt nt a => rfl
  | utf8 w a => rfl
  | binary w a => rfl

/-- The dispatcher never reads the payload of a null index slot: the
outcome depends only on the index length, the validity bitmap, and the
payloads of valid slots. -/
theorem take_congr (values : Array) {idxA idxB : PrimitiveArray Int}
    (hlen : idxA.len = idxB.len) (hval : idxA.validity = idxB.validity)
    (hpay : ∀ i, i < idxA.len → idxA.isValid i = true →
      idxA.values.getD i 0 = idxB.values.getD i 0) :
    take values idxA = take values idxB := by
  cases values with
  | boolean a =>
    exact congrArg (liftOutcome Array.boolean) (take_fixed_congr false a hlen hval hpay)
  | primitive dt nt a =>
    cases dt with
    | Boolean => rfl
    | Float16 => rfl
    | Utf8 => rfl
    | LargeUtf8 => rfl
    | Binary => rfl
    | LargeBinary => rfl
    | Null => rfl
    | List t => rfl
    | FixedSizeBinary n => rfl
    | Dictionary k v => cases k <;> rfl
    | Interval u =>
      cases u with
      | YearMonth =>
        exact downcast_take_congr .i32 (.primitive (.Interval .YearMonth) nt a) hlen hval hpay
      | DayTime => rfl
    | Int8 => exact downcast_take_congr .i8 (.primitive .Int8 nt a) hlen hval hpay
    | Int16 => exact downcast_take_congr .i16 (.primitive .Int16 nt a) hlen hval hpay
    | Int32 => exact downcast_take_congr .i32 (.primitive .Int32 nt a) hlen hval hpay
    | Int64 => exact downcast_take_congr .i64 (.primitive .Int64 nt a) hlen hval hpay
    | UInt8 => exact downcast_take_congr .u8 (.primitive .UInt8 nt a) hlen hval hpay
    | UInt16 => exact downcast_take_congr .u16 (.primitive .UInt16 nt a) hlen hval hpay
    | UInt32 => exact downcast_take_congr .u32 (.primitive .UInt32 nt a) hlen hval hpay
    | UInt64 => exact downcast_take_congr .u64 (.primitive .UInt64 nt a) hlen hval hpay
    | Float32 => exact downcast_take_congr .f32 (.primitive .Float32 nt a) hlen hval hpay
    | Float64 => exact downcast_take_congr .f64 (.primitive .Float64 nt a) hlen hval hpay
    | Decimal p sc => exact downcast_take_congr .i128 (.primitive (.Decimal p sc) nt a) hlen hval hpay
    | Date32 => exact downcast_take_congr .i32 (.primitive .Date32 nt a) hlen hval hpay
    | Date64 => exact downcast_take_congr .i64 (.primitive .Date64 nt a) hlen hval hpay
    | Time32 u => exact downcast_take_congr .i32 (.primitive (.Time32 u) nt a) hlen hval hpay
    | Time64 u => exact downcast_take_congr .i64 (.primitive (.Time64 u) nt a) hlen hval hpay
    | Duration u => exact downcast_take_congr .i64 (.primitive (.Duration u) nt a) hlen hval hpay
    | Timestamp u tz =>
      exact downcast_take_congr .i64 (.primitive (.Timestamp u tz) nt a) hlen hval hpay
  | utf8 w a =>
    cases w with
    | w32 =>
      exact congrArg (liftOutcome (Array.utf8 .w32))
        (generic_binary_congr (maxOffsetOf .w32) a hlen hval hpay)
    | w64 =>
      exact congrArg (liftOutcome (Array.utf8 .w64))
        (generic_binary_congr (maxOffsetOf .w64) a hlen hval hpay)
  | binary w a =>
    cases w with
    | w32 =>
      exact congrArg (liftOutcome (Array.binary .w32))
        (generic_binary_congr (maxOffsetOf .w32) a hlen hval hpay)
    | w64 =>
      exact congrArg (liftOutcome (Array.binary .w64))
        (generic_binary_congr (maxOffsetOf .w64) a hlen hval hpay)
  | dict kdt keys pool =>
    cases kdt with
    | Int8 => exact downcast_dict_take_congr (.dict .Int8 keys pool) hlen hval hpay
    | Int16 => exact downcast_dict_take_congr (.dict .Int16 keys pool) hlen hval hpay
    | Int32 => exact downcast_dict_take_congr (.dict .Int32 keys pool) hlen hval hpay
    | Int64 => exact downcast_dict_take_congr (.dict .Int64 keys pool) hlen hval hpay
    | UInt8 => exact downcast_dict_take_congr (.dict .UInt8 keys pool) hlen hval hpay
    | UInt16 => exact downcast_dict_take_congr (.dict .UInt16 keys pool) hlen hval hpay
    | UInt32 => exact downcast_dict_take_congr (.dict .UInt32 keys pool) hlen hval hpay
    | UInt64 => exact downcast_dict_take_congr (.dict .UInt64 keys pool) hlen hval hpay
    | Boolean => rfl
    | Float16 => rfl
    | Float32 => rfl
    | Float64 => rfl
    | Decimal p sc => rfl
    | Date32 => rfl
    | Date64 => rfl
    | Time32 u => rfl
    | Time64 u => rfl
    | Timestamp u tz => rfl
    | Duration u => rfl
    | Interval u => rfl
    | Utf8 => rfl
    | LargeUtf8 => rfl
    | Binary => rfl
    | LargeBinary => rfl
    | Dictionary k v => rfl
    | Null => rfl
    | List t => rfl
    | FixedSizeBinary n => rfl

/-- Shared two-source null rule of every successful dispatch: output row
validity is the conjunction of index-slot validity and referenced
source-row validity. -/
theorem take_ok_validRow {values : Array} {idx : PrimitiveArray Int} {out : Array}
    (h : take values idx = .ok out) :
    ∀ i, i < idx.len →
      out.isValidRow i =
        (idx.isValid i && values.isValidRow (idx.values.getD i 0).toNat) := by
  intro i hi
  rcases take_ok_shape h with
    ⟨a, b, rfl, hb, rfl⟩ | ⟨dt, nt, a, r, rfl, hr, rfl⟩ | ⟨w, a, b, rfl, hb, rfl⟩ |
    ⟨w, a, b, rfl, hb, rfl⟩ | ⟨kdt, keys, pool, r, rfl, hr, rfl⟩
  · show b.isValid i = (idx.isValid i && a.isValid (idx.values.getD i 0).toNat)
    rw [((take_fixed_ok hb).2 i hi).1]
    by_cases hv : idx.isValid i
    · rw [if_pos hv, hv, Bool.true_and]
    · rw [if_neg hv]
      rw [Bool.not_eq_true] at hv
      rw [hv, Bool.false_and]
  · show r.isValid i = (idx.isValid i && a.isValid (idx.values.getD i 0).toNat)
    rw [((take_fixed_ok hr).2 i hi).1]
    by_cases hv : idx.isValid i
    · rw [if_pos hv, hv, Bool.true_and]
    · rw [if_neg hv]
      rw [Bool.not_eq_true] at hv
      rw [hv, Bool.false_and]
  · show b.isValid i = (idx.isValid i && a.isValid (idx.values.getD i 0).toNat)
    rw [generic_binary_valid hb i hi]
    by_cases hv : idx.isValid i
    · rw [if_pos hv, hv, Bool.true_and]
    · rw [if_neg hv]
      rw [Bool.not_eq_true] at hv
      rw [hv, Bool.false_and]
  · show b.isValid i = (idx.isValid i && a.isValid (idx.values.getD i 0).toNat)
    rw [generic_binary_valid hb i hi]
    by_cases hv : idx.isValid i
    · rw [if_pos hv, hv, Bool.true_and]
    · rw [if_neg hv]
      rw [Bool.not_eq_true] at hv
      rw [hv, Bool.false_and]
  · show r.isValid i = (idx.isValid i && keys.isValid (idx.values.getD i 0).toNat)
    rw [((take_fixed_ok hr).2 i hi).1]
    by_cases hv : idx.isValid i
    · rw [if_pos hv, hv, Bool.true_and]
    · rw [if_neg hv]
      rw [Bool.not_eq_true] at hv
      rw [hv, Bool.false_and]

/-! Identity gathers per encoding, composed with the dispatcher. -/

theorem take_identity_boolean (a : BooleanArray)
    (hlen : (a.len : Int) ≤ usizeMaxI) :
    ∃ out, take (.boolean a) (identityIndices (Array.len (.boolean a))) = .ok out ∧
      out.data_type = (Array.boolean a).data_type ∧
      out.len = (Array.boolean a).len ∧
      (∀ i, i < (Array.boolean a).len → out.isValidRow i = (Array.boolean a).isValidRow i) ∧
      (∀ i, i < (Array.boolean a).len → out.cell i = (Array.boolean a).cell i) := by
  obtain ⟨out, hout, hol, hpt⟩ := take_fixed_identity false a hlen
  refine ⟨.boolean out, ?_, rfl, hol, ?_, ?_⟩
  · show liftOutcome Array.boolean (take_fixed false a (identityIndices a.len)) =
      .ok (.boolean out)
    rw [hout]
    rfl
  · intro i hi
    show out.isValid i = a.isValid i
    exact (hpt i hi).1
  · intro i hi
    show (if out.isValid i then some (CellValue.boolVal (out.values.getD i false)) else none) =
      (if a.isValid i then some (CellValue.boolVal (a.values.getD i false)) else none)
    rw [(hpt i hi).1, (hpt i hi).2]

theorem take_identity_primitive (dt : DataType) (nt : NativeType) (a : PrimitiveArray Int)
    (hred : ∀ idx, take (.primitive dt nt a) idx =
      liftOutcome (Array.primitive dt nt) (take_fixed 0 a idx))
    (hlen : (a.len : Int) ≤ usizeMaxI) :
    ∃ out, take (.primitive dt nt a) (identityIndices (Array.len (.primitive dt nt a))) =
        .ok out ∧
      out.data_type = (Array.primitive dt nt a).data_type ∧
      out.len = (Array.primitive dt nt a).len ∧
      (∀ i, i < (Array.primitive dt nt a).len →
        out.isValidRow i = (Array.primitive dt nt a).isValidRow i) ∧
      (∀ i, i < (Array.primitive dt nt a).len →
        out.cell i = (Array.primitive dt nt a).cell i) := by
  obtain ⟨out, hout, hol, hpt⟩ := take_fixed_identity 0 a hlen
  refine ⟨.primitive dt nt out, ?_, rfl, hol, ?_, ?_⟩
  · show take (.primitive dt nt a) (identityIndices a.len) = .ok (.primitive dt nt out)
    rw [hred (identityIndices a.len), hout]
    rfl
  · intro i hi
    show out.isValid i = a.isValid i
    exact (hpt i hi).1
  · intro i hi
    show (if out.isValid i then some (CellValue.intVal (out.values.getD i 0)) else none) =
      (if a.isValid i then some (CellValue.intVal (a.values.getD i 0)) else none)
    rw [(hpt i hi).1, (hpt i hi).2]

theorem take_identity_utf8 (w : OffsetWidth) (a : GenericBinaryArray)
    (hred : ∀ idx, take (.utf8 w a) idx =
      liftOutcome (Array.utf8 w) (generic_binary.take (maxOffsetOf w) a idx))
    (hwf : a.wf (maxOffsetOf w) = true)
    (hlen : (a.len : Int) ≤ usizeMaxI) :
    ∃ out, take (.utf8 w a) (identityIndices (Array.len (.utf8 w a))) = .ok out ∧
      out.data_type = (Array.utf8 w a).data_type ∧
      out.len = (Array.utf8 w a).len ∧
      (∀ i, i < (Array.utf8 w a).len → out.isValidRow i = (Array.utf8 w a).isValidRow i) ∧
      (∀ i, i < (Array.utf8 w a).len → out.cell i = (Array.utf8 w a).cell i) := by
  obtain ⟨out, hout, hol, hvalid, hslice⟩ := generic_binary_identity (maxOffsetOf w) a hwf hlen
  have hdt : (Array.utf8 w out).data_type = (Array.utf8 w a).data_type := by
    cases w <;> rfl
  refine ⟨.utf8 w out, ?_, hdt, ?_, ?_, ?_⟩
  · show take (.utf8 w a) (identityIndices a.len) = .ok (.utf8 w out)
    rw [hred (identityIndices a.len), hout]
    rfl
  · show out.len = a.len
    unfold GenericBinaryArray.len
    rw [hol]
    simp [GenericBinaryArray.len]
  · intro i hi
    show out.isValid i = a.isValid i
    exact hvalid i hi
  · intro i hi
    show (if out.isValid i then
        some (CellValue.bytesVal
          (slice out.values (out.offsets.getD i 0) (out.offsets.getD (i + 1) 0)))
      else none) =
      (if a.isValid i then
        some (CellValue.bytesVal
          (slice a.values (a.offsets.getD i 0) (a.offsets.getD (i + 1) 0)))
      else none)
    rw [hvalid i hi]
    by_cases hsv : a.isValid i
    · rw [if_pos hsv, if_pos hsv]
      have hs := hslice i hi
      rw [if_pos hsv] at hs
      rw [hs]
    · rw [if_neg hsv, if_neg hsv]

theorem take_identity_binary (w : OffsetWidth) (a : GenericBinaryArray)
    (hred : ∀ idx, take (.binary w a) idx =
      liftOutcome (Array.binary w) (generic_binary.take (maxOffsetOf w) a idx))
    (hwf : a.wf (maxOffsetOf w) = true)
    (hlen : (a.len : Int) ≤ usizeMaxI) :
    ∃ out, take (.binary w a) (identityIndices (Array.len (.binary w a))) = .ok out ∧
      out.data_type = (Array.binary w a).data_type ∧
      out.len = (Array.binary w a).len ∧
      (∀ i, i < (Array.binary w a).len →
        out.isValidRow i = (Array.binary w a).isValidRow i) ∧
      (∀ i, i < (Array.binary w a).len → out.cell i = (Array.binary w a).cell i) := by
  obtain ⟨out, hout, hol, hvalid, hslice⟩ := generic_binary_identity (maxOffsetOf w) a hwf hlen
  have hdt : (Array.binary w out).data_type = (Array.binary w a).data_type := by
    cases w <;> rfl
  refine ⟨.binary w out, ?_, hdt, ?_, ?_, ?_⟩
  · show take (.binary w a) (identityIndices a.len) = .ok (.binary w out)
    rw [hred (identityIndices a.len), hout]
    rfl
  · show out.len = a.len
    unfold GenericBinaryArray.len
    rw [hol]
    simp [GenericBinaryArray.len]
  · intro i hi
    show out.isValid i = a.isValid i
    exact hvalid i hi
  · intro i hi
    show (if out.isValid i then
        some (CellValue.bytesVal
          (slice out.values (out.offsets.getD i 0) (out.offsets.getD (i + 1) 0)))
      else none) =
      (if a.isValid i then
        some (CellValue.bytesVal
          (slice a.values (a.offsets.getD i 0) (a.offsets.getD (i + 1) 0)))
      else none)
    rw [hvalid i hi]
    by_cases hsv : a.isValid i
    · rw [if_pos hsv, if_pos hsv]
      have hs := hslice i hi
      rw [if_pos hsv] at hs
      rw [hs]
    · rw [if_neg hsv, if_neg hsv]

theorem take_identity_dict (kdt : DataType) (keys : PrimitiveArray Int) (pool : Array)
    (hred : ∀ idx, take (.dict kdt keys pool) idx =
      downcast_dict_take (.dict kdt keys pool) idx)
    (hlen : (keys.len : Int) ≤ usizeMaxI) :
    ∃ out, take (.dict kdt keys pool) (identityIndices (Array.len (.dict kdt keys pool))) =
        .ok out ∧
      out.data_type = (Array.dict kdt keys pool).data_type ∧
      out.len = (Array.dict kdt keys pool).len ∧
      (∀ i, i < (Array.dict kdt keys pool).len →
        out.isValidRow i = (Array.dict kdt keys pool).isValidRow i) ∧
      (∀ i, i < (Array.dict kdt keys pool).len →
        out.cell i = (Array.dict kdt keys pool).cell i) := by
  obtain ⟨k2, hk2, hklen, hpt⟩ := take_fixed_identity 0 keys hlen
  refine ⟨.dict kdt k2 pool, ?_, rfl, hklen, ?_, ?_⟩
  · show take (.dict kdt keys pool) (identityIndices keys.len) = .ok (.dict kdt k2 pool)
    rw [hred (identityIndices keys.len), downcast_dict_take_eq]
    have hd : dict.take (DictionaryArray.mk keys pool) (identityIndices keys.len) =
        .ok ⟨k2, pool⟩ := by
      unfold dict.take
      rw [show primitive.take keys (identityIndices keys.len) = .ok k2 from hk2]
    rw [hd]
  · intro i hi
    show k2.isValid i = keys.isValid i
    exact (hpt i hi).1
  · intro i hi
    show (if k2.isValid i then pool.cell (k2.values.getD i 0).toNat else none) =
      (if keys.isValid i then pool.cell (keys.values.getD i 0).toNat else none)
    rw [(hpt i hi).1, (hpt i hi).2]

/-! The claims. -/

/-- C4: the index-to-offset conversion `maybe_usize` returns the
`DictionaryKeyOverflowError` exactly when the value is negative or does
not fit the platform word, and otherwise returns the exact non-negative
offset equal to the input value — it never truncates or wraps. -/
theorem maybe_usize_exact (i : Int) :
    (maybe_usize i = .error ArrowError.DictionaryKeyOverflowError ↔
      (i < 0 ∨ usizeMaxI < i)) ∧
    (∀ n : Nat, maybe_usize i = .ok n → (n : Int) = i) := by
  unfold maybe_usize
  split
  next hc =>
    refine ⟨⟨fun he => absurd he (by simp), fun hco => absurd hco (by omega)⟩,
      fun n hn => ?_⟩
    injection hn with hn
    rw [← hn]
    exact Int.toNat_of_nonneg hc.1
  next hc =>
    refine ⟨⟨fun _ => by omega, fun _ => rfl⟩, fun n hn => absurd hn (by simp)⟩

/-- Witness for `maybe_usize_exact` at the inputs `-7` and `5`. -/
theorem maybe_usize_exact_witness :
    maybe_usize (-7) = .error ArrowError.DictionaryKeyOverflowError ∧
      ((5 : Nat) : Int) = 5 :=
  ⟨(maybe_usize_exact (-7)).1.mpr (Or.inl (by decide)),
   (maybe_usize_exact 5).2 5 rfl⟩

/-- C9: the dispatcher maps every logical type tag to the gather of its
physical encoding: Boolean to the bit-packed gather; integer, float,
decimal and temporal tags to the fixed-width gather at the correct native
width (Int32, Date32, Time32 and Interval-YearMonth require the 32-bit
downcast, Int64, Date64, Time64, Duration and Timestamp the 64-bit one);
Utf8/Binary to the variable-length gather at 32-bit offsets and
LargeUtf8/LargeBinary at 64-bit offsets; Dictionary to the dictionary
gather for each of the eight integer key widths. -/
theorem dispatch_table :
    (∀ (a : BooleanArray) (idx : PrimitiveArray Int),
      take (.boolean a) idx = liftOutcome Array.boolean (boolean.take a idx)) ∧
    (∀ (nt : NativeType) (a idx : PrimitiveArray Int),
      take (.primitive .Int8 nt a) idx =
        if nt = .i8 then liftOutcome (Array.primitive .Int8 nt) (primitive.take a idx)
        else .panicked msgDowncastPrimitive) ∧
    (∀ (nt : NativeType) (a idx : PrimitiveArray Int),
      take (.primitive .Int16 nt a) idx =
        if nt = .i16 then liftOutcome (Array.primitive .Int16 nt) (primitive.take a idx)
        else .panicked msgDowncastPrimitive) ∧
    (∀ (nt : NativeType) (a idx : PrimitiveArray Int),
      take (.primitive .Int32 nt a) idx =
        if nt = .i32 then liftOutcome (Array.primitive .Int32 nt) (primitive.take a idx)
        else .panicked msgDowncastPrimitive) ∧
    (∀ (nt : NativeType) (a idx : PrimitiveArray Int),
      take (.primitive .Date32 nt a) idx =
        if nt = .i32 then liftOutcome (Array.primitive .Date32 nt) (primitive.take a idx)
        else .panicked msgDowncastPrimitive) ∧
    (∀ (u : TimeUnit) (nt : NativeType) (a idx : PrimitiveArray Int),
      take (.primitive (.Time32 u) nt a) idx =
        if nt = .i32 then
          liftOutcome (Array.primitive (.Time32 u) nt) (primitive.take a idx)
        else .panicked msgDowncastPrimitive) ∧
    (∀ (nt : NativeType) (a idx : PrimitiveArray Int),
      take (.primitive (.Interval .YearMonth) nt a) idx =
        if nt = .i32 then
          liftOutcome (Array.primitive (.Interval .YearMonth) nt) (primitive.take a idx)
        else .panicked msgDowncastPrimitive) ∧
    (∀ (nt : NativeType) (a idx : PrimitiveArray Int),
      take (.primitive .Int64 nt a) idx =
        if nt = .i64 then liftOutcome (Array.primitive .Int64 nt) (primitive.take a idx)
        else .panicked msgDowncastPrimitive) ∧
    (∀ (nt : NativeType) (a idx : PrimitiveArray Int),
      take (.primitive .Date64 nt a) idx =
        if nt = .i64 then liftOutcome (Array.primitive .Date64 nt) (primitive.take a idx)
        else .panicked msgDowncastPrimitive) ∧
    (∀ (u : TimeUnit) (nt : NativeType) (a idx : PrimitiveArray Int),
      take (.primitive (.Time64 u) nt a) idx =
        if nt = .i64 then
          liftOutcome (Array.primitive (.Time64 u) nt) (primitive.take a idx)
        else .panicked msgDowncastPrimitive) ∧
    (∀ (u : TimeUnit) (nt : NativeType) (a idx : PrimitiveArray Int),
      take (.primitive (.Duration u) nt a) idx =
        if nt = .i64 then
          liftOutcome (Array.primitive (.Duration u) nt) (primitive.take a idx)
        else .panicked msgDowncastPrimitive) ∧
    (∀ (u : TimeUnit) (tz : Option String) (nt : NativeType) (a idx : PrimitiveArray Int),
      take (.primitive (.Timestamp u tz) nt a) idx =
        if nt = .i64 then
          liftOutcome (Array.primitive (.Timestamp u tz) nt) (primitive.take a idx)
        else .panicked msgDowncastPrimitive) ∧
    (∀ (nt : NativeType) (a idx : PrimitiveArray Int),
      take (.primitive .UInt8 nt a) idx =
        if nt = .u8 then liftOutcome (Array.primitive .UInt8 nt) (primitive.take a idx)
        else .panicked msgDowncastPrimitive) ∧
    (∀ (nt : NativeType) (a idx : PrimitiveArray Int),
      take (.primitive .UInt16 nt a) idx =
        if nt = .u16 then liftOutcome (Array.primitive .UInt16 nt) (primitive.take a idx)
        else .panicked msgDowncastPrimitive) ∧
    (∀ (nt : NativeType) (a idx : PrimitiveArray Int),
      take (.primitive .UInt32 nt a) idx =
        if nt = .u32 then liftOutcome (Array.primitive .UInt32 nt) (primitive.take a idx)
        else .panicked msgDowncastPrimitive) ∧
    (∀ (nt : NativeType) (a idx : PrimitiveArray Int),
      take (.primitive .UInt64 nt a) idx =
        if nt = .u64 then liftOutcome (Array.primitive .UInt64 nt) (primitive.take a idx)
        else .panicked msgDowncastPrimitive) ∧
    (∀ (nt : NativeType) (a idx : PrimitiveArray Int),
      take (.primitive .Float32 nt a) idx =
        if nt = .f32 then liftOutcome (Array.primitive .Float32 nt) (primitive.take a idx)
        else .panicked msgDowncastPrimitive) ∧
    (∀ (nt : NativeType) (a idx : PrimitiveArray Int),
      take (.primitive .Float64 nt a) idx =
        if nt = .f64 then liftOutcome (Array.primitive .Float64 nt) (primitive.take a idx)
        else .panicked msgDowncastPrimitive) ∧
    (∀ (p sc : Nat) (nt : NativeType) (a idx : PrimitiveArray Int),
      take (.primitive (.Decimal p sc) nt a) idx =
        if nt = .i128 then
          liftOutcome (Array.primitive (.Decimal p sc) nt) (primitive.take a idx)
        else .panicked msgDowncastPrimitive) ∧
    (∀ (w : OffsetWidth) (a : GenericBinaryArray) (idx : PrimitiveArray Int),
      take (.utf8 w a) idx = liftOutcome (Array.utf8 w) (utf8.take w a idx)) ∧
    (∀ (w : OffsetWidth) (a : GenericBinaryArray) (idx : PrimitiveArray Int),
      take (.binary w a) idx = liftOutcome (Array.binary w) (binary.take w a idx)) ∧
    (∀ (w : OffsetWidth) (a : GenericBinaryArray) (idx : PrimitiveArray Int),
      utf8.take w a idx = generic_binary.take (maxOffsetOf w) a idx) ∧
    (∀ (w : OffsetWidth) (a : GenericBinaryArray) (idx : PrimitiveArray Int),
      binary.take w a idx = generic_binary.take (maxOffsetOf w) a idx) ∧
    (maxOffsetOf .w32 = 2 ^ 31 - 1 ∧ maxOffsetOf .w64 = 2 ^ 63 - 1) ∧
    (∀ (keys : PrimitiveArray Int) (pool : Array) (idx : PrimitiveArray Int),
      take (.dict .Int8 keys pool) idx = downcast_dict_take (.dict .Int8 keys pool) idx ∧
      take (.dict .Int16 keys pool) idx = downcast_dict_take (.dict .Int16 keys pool) idx ∧
      take (.dict .Int32 keys pool) idx = downcast_dict_take (.dict .Int32 keys pool) idx ∧
      take (.dict .Int64 keys pool) idx = downcast_dict_take (.dict .Int64 keys pool) idx ∧
      take (.dict .UInt8 keys pool) idx = downcast_dict_take (.dict .UInt8 keys pool) idx ∧
      take (.dict .UInt16 keys pool) idx =
        downcast_dict_take (.dict .UInt16 keys pool) idx ∧
      take (.dict .UInt32 keys pool) idx =
        downcast_dict_take (.dict .UInt32 keys pool) idx ∧
      take (.dict .UInt64 keys pool) idx =
        downcast_dict_take (.dict .UInt64 keys pool) idx) ∧
    (∀ (kdt : DataType) (keys : PrimitiveArray Int) (pool : Array)
        (idx : PrimitiveArray Int),
      downcast_dict_take (.dict kdt keys pool) idx =
        (match dict.take (DictionaryArray.mk keys pool) idx with
        | .error e => .error e
        | .ok d => .ok (.dict kdt d.keys d.values))) ∧
    (∀ (keys : PrimitiveArray Int) (pool : Array) (idx : PrimitiveArray Int),
      dict.take (DictionaryArray.mk keys pool) idx =
        (match primitive.take keys idx with
        | .error e => .error e
        | .ok ks => .ok (DictionaryArray.mk ks pool))) :=
  ⟨fun a idx => rfl, fun nt1 a1 idx1 => rfl, fun nt2 a2 idx2 => rfl,
   fun nt3 a3 idx3 => rfl, fun nt4 a4 idx4 => rfl, fun u1 nt5 a5 idx5 => rfl,
   fun nt6 a6 idx6 => rfl, fun nt7 a7 idx7 => rfl, fun nt8 a8 idx8 => rfl,
   fun u2 nt9 a9 idx9 => rfl, fun u3 ntA aA idxA => rfl,
   fun u4 tz ntB aB idxB => rfl, fun ntC aC idxC => rfl, fun ntD aD idxD => rfl,
   fun ntE aE idxE => rfl, fun ntF aF idxF => rfl, fun ntG aG idxG => rfl,
   fun ntH aH idxH => rfl, fun p sc ntI aI idxI => rfl,
   fun w1 aJ idxJ => by cases w1 <;> rfl, fun w2 aK idxK => by cases w2 <;> rfl,
   fun w3 aL idxL => rfl, fun w4 aM idxM => rfl, ⟨rfl, rfl⟩,
   fun keys pool idxN => ⟨rfl, rfl, rfl, rfl, rfl, rfl, rfl, rfl⟩,
   fun kdt keys2 pool2 idxP => rfl, fun keys3 pool3 idxQ => rfl⟩

/-- C5 (counterexample): take on a logical type with no dispatch arm
(Interval with the DayTime unit) panics via `unimplemented` instead of
returning a typed error result. -/
theorem take_unimplemented_panics_cex :
    take (.primitive (.Interval .DayTime) .i64 ⟨[], none⟩) ⟨[], none⟩ =
      .panicked msgNotImplemented := rfl

/-- C5 (amended): on every supported source column the dispatcher always
hands the caller a result (never panics); an index-overflow failure — a
valid index slot whose payload is negative or exceeds the platform word —
is always reported as the explicit typed overflow error; and a successful
call certifies that no valid slot overflowed, so a data-dependent failure
is never silently downgraded to a default output.  The
unsupported-operation case, by contrast, is not a typed error: take
panics via `unimplemented` (with a message distinct from the other
panics) for any logical type with no dispatch arm. -/
theorem take_failure_reporting_amended :
    (∀ (values : Array) (idx : PrimitiveArray Int), values.supported = true →
      (∃ out, take values idx = TakeOutcome.ok out) ∨
        (∃ e, take values idx = TakeOutcome.error e)) ∧
    (∀ (values : Array) (idx : PrimitiveArray Int), values.supported = true →
      (∃ i, i < idx.len ∧ idx.isValid i = true ∧
        (idx.values.getD i 0 < 0 ∨ usizeMaxI < idx.values.getD i 0)) →
      take values idx = TakeOutcome.error ArrowError.DictionaryKeyOverflowError) ∧
    (∀ (values : Array) (idx : PrimitiveArray Int) (out : Array),
      take values idx = TakeOutcome.ok out →
      ∀ i, i < idx.len → idx.isValid i = true →
        0 ≤ idx.values.getD i 0 ∧ idx.values.getD i 0 ≤ usizeMaxI) ∧
    (∀ (nt : NativeType) (a idx : PrimitiveArray Int),
      take (.primitive .Null nt a) idx = .panicked msgNotImplemented) ∧
    (∀ (t : DataType) (nt : NativeType) (a idx : PrimitiveArray Int),
      take (.primitive (.List t) nt a) idx = .panicked msgNotImplemented) ∧
    (∀ (n : Nat) (nt : NativeType) (a idx : PrimitiveArray Int),
      take (.primitive (.FixedSizeBinary n) nt a) idx = .panicked msgNotImplemented) ∧
    (∀ (nt : NativeType) (a idx : PrimitiveArray Int),
      take (.primitive (.Interval .DayTime) nt a) idx = .panicked msgNotImplemented) ∧
    ((msgNotImplemented == msgUnreachable) = false) ∧
    ((msgNotImplemented == msgDowncastPrimitive) = false) := by
  refine ⟨take_supported_total, take_supported_err, ?_, ?_, ?_, ?_, ?_, by decide, by decide⟩
  · intro vals idxC outC hok iC hiC hvC
    exact take_ok_inrange hok iC hiC hvC
  · intro ntW aW idxW
    rfl
  · intro tX ntX aX idxX
    rfl
  · intro nY ntY aY idxY
    rfl
  · intro ntZ aZ idxZ
    rfl

/-- Witness for `take_failure_reporting_amended`: the overflowing index
payload -1 against an Int8 column of one row yields the typed overflow
error. -/
theorem take_failure_reporting_amended_witness :
    take (Array.primitive .Int8 .i8 ⟨[5], none⟩) ⟨[-1], none⟩ =
      TakeOutcome.error ArrowError.DictionaryKeyOverflowError :=
  take_failure_reporting_amended.2.1 (Array.primitive .Int8 .i8 ⟨[5], none⟩)
    ⟨[-1], none⟩ (by decide) ⟨0, by decide, by decide, Or.inl (by decide)⟩

/-- C10 (counterexample): another unhandled logical type (Null) is also a
panic (`unimplemented`), not a typed unsupported-operation error — the
dispatcher has no typed unsupported-operation result to contrast with. -/
theorem unreachable_claim_cex :
    take (.primitive .Null .i8 ⟨[], none⟩) ⟨[], none⟩ = .panicked msgNotImplemented := rfl

/-- C10 (amended): a Float16 source, or a dictionary column whose key
type is outside the eight supported integer widths, always panics from
the public `take` via `unreachable`, a panic distinct from the
`unimplemented` panic used for other unhandled logical types. -/
theorem unreachable_panics_amended :
    (∀ (nt : NativeType) (a idx : PrimitiveArray Int),
      take (.primitive .Float16 nt a) idx = .panicked msgUnreachable) ∧
    (∀ (keyDt : DataType), dictKeySupported keyDt = false →
      ∀ (keys : PrimitiveArray Int) (pool : Array) (idx : PrimitiveArray Int),
        take (.dict keyDt keys pool) idx = .panicked msgUnreachable) ∧
    ((msgUnreachable == msgNotImplemented) = false) := by
  refine ⟨fun _ _ _ => rfl, ?_, by decide⟩
  intro keyDt h keys pool idx
  cases keyDt <;> first | rfl | exact absurd h (by decide)

/-- Witness for `unreachable_panics_amended` at a Utf8 dictionary key. -/
theorem unreachable_panics_amended_witness :
    take (.dict .Utf8 ⟨[], none⟩ (.boolean ⟨[], none⟩)) ⟨[], none⟩ =
      .panicked msgUnreachable :=
  unreachable_panics_amended.2.1 .Utf8 (by decide) ⟨[], none⟩ (.boolean ⟨[], none⟩)
    ⟨[], none⟩

/-- C1: every successful `take` returns a column whose length equals the
index column's length and whose logical type equals the source's. -/
theorem take_length_and_type {values : Array} {idx : PrimitiveArray Int} {out : Array}
    (h : take values idx = .ok out) :
    out.len = idx.len ∧ out.data_type = values.data_type := by
  rcases take_ok_shape h with
    ⟨a, b, rfl, hb, rfl⟩ | ⟨dt, nt, a, r, rfl, hr, rfl⟩ | ⟨w, a, b, rfl, hb, rfl⟩ |
    ⟨w, a, b, rfl, hb, rfl⟩ | ⟨kdt, keys, pool, r, rfl, hr, rfl⟩
  · exact ⟨(take_fixed_ok hb).1, rfl⟩
  · exact ⟨(take_fixed_ok hr).1, rfl⟩
  · refine ⟨?_, by cases w <;> rfl⟩
    show b.len = idx.len
    unfold GenericBinaryArray.len
    rw [generic_binary_len hb]
    simp
  · refine ⟨?_, by cases w <;> rfl⟩
    show b.len = idx.len
    unfold GenericBinaryArray.len
    rw [generic_binary_len hb]
    simp
  · exact ⟨(take_fixed_ok hr).1, rfl⟩

/-- Witness for `take_length_and_type` on an Int8 column of length 2 and
one index row. -/
theorem take_length_and_type_witness :
    (Array.primitive .Int8 .i8 ⟨[7], none⟩).len = (⟨[1], none⟩ : PrimitiveArray Int).len ∧
    (Array.primitive .Int8 .i8 ⟨[7], none⟩).data_type =
      (Array.primitive .Int8 .i8 ⟨[5, 7], none⟩).data_type :=
  @take_length_and_type (.primitive .Int8 .i8 ⟨[5, 7], none⟩) ⟨[1], none⟩
    (.primitive .Int8 .i8 ⟨[7], none⟩) (by decide)

/-- C2: null propagation OR rule — a row of a successful output is valid
exactly when its index slot is valid and the referenced source row is
valid (so null iff the index is null or the referenced row is null),
uniformly across the five dispatched encodings. -/
theorem take_null_or_rule {values : Array} {idx : PrimitiveArray Int} {out : Array}
    (h : take values idx = .ok out) (i : Nat) (hi : i < idx.len) :
    out.isValidRow i = (idx.isValid i && values.isValidRow (idx.values.getD i 0).toNat) :=
  take_ok_validRow h i hi

/-- Witness for `take_null_or_rule` at row 0 of a one-row take. -/
theorem take_null_or_rule_witness :
    (Array.primitive .Int8 .i8 ⟨[3], some [true]⟩).isValidRow 0 =
      ((⟨[0], some [true]⟩ : PrimitiveArray Int).isValid 0 &&
        (Array.primitive .Int8 .i8 ⟨[3], none⟩).isValidRow
          ((⟨[0], some [true]⟩ : PrimitiveArray Int).values.getD 0 0).toNat) :=
  @take_null_or_rule (.primitive .Int8 .i8 ⟨[3], none⟩) ⟨[0], some [true]⟩
    (.primitive .Int8 .i8 ⟨[3], some [true]⟩) (by decide) 0 (by decide)

/-- C6: a successful dictionary take passes the shared values pool
through untouched (the output's pool is the very same pool, not a copy)
and gathers only the keys array with the fixed-width gather. -/
theorem dict_values_pass_through {keyDt : DataType} {keys : PrimitiveArray Int}
    {pool : Array} {idx : PrimitiveArray Int} {out : Array}
    (h : take (.dict keyDt keys pool) idx = .ok out) :
    out.dictPool = some pool ∧
    (∀ r, primitive.take keys idx = .ok r → out = .dict keyDt r pool) := by
  rcases take_ok_shape h with
    ⟨a, b, heq, -, -⟩ | ⟨dt, nt, a, r, heq, -, -⟩ | ⟨w, a, b, heq, -, -⟩ |
    ⟨w, a, b, heq, -, -⟩ | ⟨kdt, keys2, pool2, r, heq, hr, hout⟩
  · exact Array.noConfusion heq
  · exact Array.noConfusion heq
  · exact Array.noConfusion heq
  · exact Array.noConfusion heq
  · injection heq with h1 h2 h3
    subst h1
    subst h2
    subst h3
    subst hout
    refine ⟨rfl, ?_⟩
    intro r2 hr2
    have h4 : take_fixed (0 : Int) keys idx = .ok r2 := hr2
    rw [hr] at h4
    injection h4 with h4
    rw [h4]

/-- Witness for `dict_values_pass_through`: the output pool is the input
pool. -/
theorem dict_values_pass_through_witness :
    (Array.dict .Int8 ⟨[0], none⟩ (.boolean ⟨[true], none⟩)).dictPool =
      some (.boolean ⟨[true], none⟩) :=
  (@dict_values_pass_through .Int8 ⟨[0], none⟩ (.boolean ⟨[true], none⟩) ⟨[0], none⟩
    (.dict .Int8 ⟨[0], none⟩ (.boolean ⟨[true], none⟩)) (by decide)).1

/-- C8: the integer payload of a null index slot is never used: the whole
outcome of `take` is unchanged under arbitrary replacement of the
payloads of invalid slots (in particular no overflow error can arise from
them, since validity is checked before conversion), and a successful
output is null at every invalid index slot. -/
theorem null_index_payload_never_used (values : Array) {idxA idxB : PrimitiveArray Int}
    (out : Array) (i : Nat)
    (hlen : idxA.len = idxB.len) (hval : idxA.validity = idxB.validity)
    (hpay : ∀ j, j < idxA.len → idxA.isValid j = true →
      idxA.values.getD j 0 = idxB.values.getD j 0) :
    take values idxA = take values idxB ∧
    (take values idxA = .ok out → i < idxA.len → idxA.isValid i = false →
      out.isValidRow i = false) := by
  refine ⟨take_congr values hlen hval hpay, ?_⟩
  intro h hi hv
  rw [take_ok_validRow h i hi, hv, Bool.false_and]

/-- Witness for `null_index_payload_never_used`: a null slot carrying the
stale payload 99 yields a null output row. -/
theorem null_index_payload_never_used_witness :
    (Array.primitive .Int8 .i8 ⟨[0], some [false]⟩).isValidRow 0 = false :=
  (@null_index_payload_never_used (.primitive .Int8 .i8 ⟨[5], none⟩)
    ⟨[99], some [false]⟩ ⟨[-3], some [false]⟩
    (.primitive .Int8 .i8 ⟨[0], some [false]⟩) 0 (by decide) (by decide)
    (fun j hj hvj => by
      have hj1 : j < 1 := hj
      have hj0 : j = 0 := by omega
      subst hj0
      exact absurd hvj (by decide))).2 (by decide) (by decide) (by decide)

/-- C3: taking with the identity index sequence `[0, ..., n-1]` over any
supported, well-formed source of length `n` succeeds and reproduces the
source: same logical type, same length, same per-row null status and the
same logical value in every row. -/
theorem take_identity {values : Array}
    (hwf : values.wf = true) (hsup : values.supported = true)
    (hn : (values.len : Int) ≤ usizeMaxI) :
    ∃ out, take values (identityIndices values.len) = .ok out ∧
      out.data_type = values.data_type ∧ out.len = values.len ∧
      (∀ i, i < values.len → out.isValidRow i = values.isValidRow i) ∧
      (∀ i, i < values.len → out.cell i = values.cell i) := by
  cases values with
  | boolean a => exact take_identity_boolean a hn
  | primitive dt nt a =>
    cases dt with
    | Boolean => exact Bool.noConfusion hsup
    | Float16 => exact Bool.noConfusion hsup
    | Utf8 => exact Bool.noConfusion hsup
    | LargeUtf8 => exact Bool.noConfusion hsup
    | Binary => exact Bool.noConfusion hsup
    | LargeBinary => exact Bool.noConfusion hsup
    | Null => exact Bool.noConfusion hsup
    | List t => exact Bool.noConfusion hsup
    | FixedSizeBinary n => exact Bool.noConfusion hsup
    | Dictionary k v => exact Bool.noConfusion hsup
    | Interval u =>
      cases u with
      | YearMonth =>
        cases nt <;> first
          | exact take_identity_primitive _ _ a (fun idx => rfl) hn
          | exact Bool.noConfusion hsup
      | DayTime => exact Bool.noConfusion hsup
    | Int8 =>
      cases nt <;> first
        | exact take_identity_primitive _ _ a (fun idx => rfl) hn
        | exact Bool.noConfusion hsup
    | Int16 =>
      cases nt <;> first
        | exact take_identity_primitive _ _ a (fun idx => rfl) hn
        | exact Bool.noConfusion hsup
    | Int32 =>
      cases nt <;> first
        | exact take_identity_primitive _ _ a (fun idx => rfl) hn
        | exact Bool.noConfusion hsup
    | Int64 =>
      cases nt <;> first
        | exact take_identity_primitive _ _ a (fun idx => rfl) hn
        | exact Bool.noConfusion hsup
    | UInt8 =>
      cases nt <;> first
        | exact take_identity_primitive _ _ a (fun idx => rfl) hn
        | exact Bool.noConfusion hsup
    | UInt16 =>
      cases nt <;> first
        | exact take_identity_primitive _ _ a (fun idx => rfl) hn
        | exact Bool.noConfusion hsup
    | UInt32 =>
      cases nt <;> first
        | exact take_identity_primitive _ _ a (fun idx => rfl) hn
        | exact Bool.noConfusion hsup
    | UInt64 =>
      cases nt <;> first
        | exact take_identity_primitive _ _ a (fun idx => rfl) hn
        | exact Bool.noConfusion hsup
    | Float32 =>
      cases nt <;> first
        | exact take_identity_primitive _ _ a (fun idx => rfl) hn
        | exact Bool.noConfusion hsup
    | Float64 =>
      cases nt <;> first
        | exact take_identity_primitive _ _ a (fun idx => rfl) hn
        | exact Bool.noConfusion hsup
    | Decimal p sc =>
      cases nt <;> first
        | exact take_identity_primitive _ _ a (fun idx => rfl) hn
        | exact Bool.noConfusion hsup
    | Date32 =>
      cases nt <;> first
        | exact take_identity_primitive _ _ a (fun idx => rfl) hn
        | exact Bool.noConfusion hsup
    | Date64 =>
      cases nt <;> first
        | exact take_identity_primitive _ _ a (fun idx => rfl) hn
        | exact Bool.noConfusion hsup
    | Time32 u =>
      cases nt <;> first
        | exact take_identity_primitive _ _ a (fun idx => rfl) hn
        | exact Bool.noConfusion hsup
    | Time64 u =>
      cases nt <;> first
        | exact take_identity_primitive _ _ a (fun idx => rfl) hn
        | exact Bool.noConfusion hsup
    | Duration u =>
      cases nt <;> first
        | exact take_identity_primitive _ _ a (fun idx => rfl) hn
        | exact Bool.noConfusion hsup
    | Timestamp u tz =>
      cases nt <;> first
        | exact take_identity_primitive _ _ a (fun idx => rfl) hn
        | exact Bool.noConfusion hsup
  | utf8 w a =>
    cases w with
    | w32 => exact take_identity_utf8 .w32 a (fun idx => rfl) hwf hn
    | w64 => exact take_identity_utf8 .w64 a (fun idx => rfl) hwf hn
  | binary w a =>
    cases w with
    | w32 => exact take_identity_binary .w32 a (fun idx => rfl) hwf hn
    | w64 => exact take_identity_binary .w64 a (fun idx => rfl) hwf hn
  | dict kdt keys pool =>
    cases kdt <;> first
      | exact take_identity_dict _ keys pool (fun idx => rfl) hn
      | exact Bool.noConfusion hsup

/-- Witness for `take_identity` on a one-row Int8 column. -/
theorem take_identity_witness :
    ∃ out, take (.primitive .Int8 .i8 ⟨[5], some [true]⟩)
        (identityIndices (Array.len (.primitive .Int8 .i8 ⟨[5], some [true]⟩))) =
          .ok out ∧
      out.data_type = (Array.primitive .Int8 .i8 ⟨[5], some [true]⟩).data_type ∧
      out.len = (Array.primitive .Int8 .i8 ⟨[5], some [true]⟩).len ∧
      (∀ i, i < (Array.primitive .Int8 .i8 ⟨[5], some [true]⟩).len →
        out.isValidRow i = (Array.primitive .Int8 .i8 ⟨[5], some [true]⟩).isValidRow i) ∧
      (∀ i, i < (Array.primitive .Int8 .i8 ⟨[5], some [true]⟩).len →
        out.cell i = (Array.primitive .Int8 .i8 ⟨[5], some [true]⟩).cell i) :=
  @take_identity (.primitive .Int8 .i8 ⟨[5], some [true]⟩) (by decide) (by decide)
    (by decide)

/-- C7: variable-length byte accounting — `take` routes text/binary
columns to the variable-length gather at the width's offset bound; a
successful gather's final offset equals the sum of byte lengths of all
non-null selected rows and its byte buffer is the concatenation, in index
order, of the referenced source spans; and when the selected byte total
exceeds the offset width, the gather reports the typed `Overflow` error
instead of wrapping. -/
theorem var_len_byte_accounting (w : OffsetWidth) (a : GenericBinaryArray)
    (idx : PrimitiveArray Int) :
    (∀ idx2 : PrimitiveArray Int, take (.utf8 w a) idx2 =
      liftOutcome (Array.utf8 w) (generic_binary.take (maxOffsetOf w) a idx2)) ∧
    (∀ idx2 : PrimitiveArray Int, take (.binary w a) idx2 =
      liftOutcome (Array.binary w) (generic_binary.take (maxOffsetOf w) a idx2)) ∧
    (∀ out, generic_binary.take (maxOffsetOf w) a idx = .ok out →
      out.offsets.getD idx.len 0 = specTotalBytes a idx ∧
      out.values = specConcatBytes a idx) ∧
    (a.wf (maxOffsetOf w) = true →
      (∀ i, i < idx.len → idx.isValid i = true →
        0 ≤ idx.values.getD i 0 ∧ idx.values.getD i 0 ≤ usizeMaxI ∧
          (idx.values.getD i 0).toNat < a.len) →
      maxOffsetOf w < specTotalBytes a idx →
      generic_binary.take (maxOffsetOf w) a idx = .error ArrowError.Overflow) := by
  refine ⟨?_, ?_, ?_, ?_⟩
  · intro idx2
    cases w <;> rfl
  · intro idx2
    cases w <;> rfl
  · intro out h
    obtain ⟨offs, -, -, hvals, -⟩ := generic_binary_ok h
    exact ⟨generic_binary_final_offset h, hvals⟩
  · intro hwf hidx hover
    exact generic_binary_overflow (maxOffsetOf w) a idx hwf hidx hover

/-- Witness for `var_len_byte_accounting` on a two-row selection of a
three-byte source. -/
theorem var_len_byte_accounting_witness :
    (⟨[0, 1, 3], [12, 10, 11], none⟩ : GenericBinaryArray).offsets.getD
        (⟨[1, 0], none⟩ : PrimitiveArray Int).len 0 =
      specTotalBytes ⟨[0, 2, 3], [10, 11, 12], none⟩ ⟨[1, 0], none⟩ ∧
    (⟨[0, 1, 3], [12, 10, 11], none⟩ : GenericBinaryArray).values =
      specConcatBytes ⟨[0, 2, 3], [10, 11, 12], none⟩ ⟨[1, 0], none⟩ :=
  (var_len_byte_accounting .w32 ⟨[0, 2, 3], [10, 11, 12], none⟩ ⟨[1, 0], none⟩).2.2.1
    ⟨[0, 1, 3], [12, 10, 11], none⟩ rfl

end Arrow2
